import Mathlib

/-!
# Verification of the tw-news-analysis services

A shallow embedding, in Lean 4, of the parts of the `tw-news-analysis`
repository that the verified claims are about:

* the OpenAI batch-status mapping and the polling loop's reaction to each
  status (`app/services/pipeline/analysis/openai_batch_provider.py` and
  `LLMAnalysisService._poll_batch`),
* the pending-URL queue (`app/services/pending_url_service.py`),
* the rule-based article filter (`app/services/pipeline/rule_filter_service.py`),
* the tags serialization used by the article-crawl commit, the reparse job,
  and their readers,
* the raw-HTML archive engine (`app/services/data_management_service.py`),
* the LLM analysis coordinator (`app/services/pipeline/llm_analysis_service.py`)
  together with the result store's failure classification
  (`analysis/timescale_store.py`).

Database sessions are modelled by explicit state records; a `commit` is
modelled by recording a snapshot of the state in an event trace, so that
properties about *committed* states can be stated.  External effects (the
LLM provider, the analytical store's per-article transaction, filesystem
writes) are modelled as oracle parameters or trace events.
-/

namespace TwNews

/-- Python truthiness of an optional string column (`if not x` is true for
`None` and for the empty string). -/
def truthy : Option String → Bool
  | none => false
  | some s => !(s == "")

/-- Whether `needle` occurs at the start of `haystack` (on char lists). -/
def listStartsWith : List Char → List Char → Bool
  | [], _ => true
  | _ :: _, [] => false
  | n :: ns, h :: hs => n == h && listStartsWith ns hs

/-- Whether `needle` occurs somewhere inside `haystack` (on char lists). -/
def listContains (needle : List Char) : List Char → Bool
  | [] => needle.isEmpty
  | h :: hs => listStartsWith needle (h :: hs) || listContains needle hs

/-- Python's `needle in haystack` substring test, modelled on the
underlying character lists. -/
def containsSub (haystack needle : String) : Bool :=
  listContains needle.data haystack.data

/-- One whitespace character, as recognised by Python's `str.strip()`
(restricted to the ASCII whitespace actually occurring in the data). -/
def isPyWs (c : Char) : Bool :=
  c == ' ' || c == '\t' || c == '\n' || c == '\r'

/-- Python's `str.strip()` on the character list. -/
def stripChars (l : List Char) : List Char :=
  ((l.dropWhile isPyWs).reverse.dropWhile isPyWs).reverse

/-- Python's `str.strip()`. -/
def pyStrip (s : String) : String :=
  ⟨stripChars s.data⟩

/-! ## Decimal rendering and parsing of article ids

The provider speaks custom ids of the form `article_<id>`
(`f"article_{a.id}"` in the source); the inverse `parse_article_id` lives in
`analysis/base_provider.py`, which is imported by the coordinator but whose
definition is not part of the sources under verification, so parsing is
modelled from the spec's format `"article_<id>"`.  Decimal rendering and
parsing are defined through `Nat.digits` so that the round-trip is
provable. -/

/-- The decimal digit character for a digit value `< 10`. -/
def digitChar10 : Nat → Char
  | 0 => '0'
  | 1 => '1'
  | 2 => '2'
  | 3 => '3'
  | 4 => '4'
  | 5 => '5'
  | 6 => '6'
  | 7 => '7'
  | 8 => '8'
  | 9 => '9'
  | _ => '0'

/-- Decimal rendering of a natural number (the digit string produced by
Python's `str(n)` / an f-string). -/
def natStr (n : Nat) : String :=
  if n = 0 then "0" else ⟨((Nat.digits 10 n).reverse.map digitChar10)⟩

/-- Parse a list of decimal digit characters into a number; `none` if the
list is empty or contains a non-digit. -/
def parseDigits (l : List Char) : Option Nat :=
  if l = [] then none
  else if l.all (fun c => 48 ≤ c.toNat && c.toNat ≤ 57) then
    some (Nat.ofDigits 10 ((l.map (fun c => c.toNat - 48)).reverse))
  else none

/-- Modelled from the spec: `parse_article_id` (defined in
`analysis/base_provider.py`, not among the given sources) recovers the
article id from a custom id of the form `"article_<id>"`. -/
def parse_article_id (s : String) : Option Nat :=
  if listStartsWith "article_".data s.data then parseDigits (s.data.drop 8)
  else none

/-- The custom id built by the coordinator: `f"article_{a.id}"`. -/
def mkCustomId (n : Nat) : String :=
  "article_" ++ natStr n

theorem digitChar10_lt_base {d : Nat} (h : d < 10) :
    48 ≤ (digitChar10 d).toNat ∧ (digitChar10 d).toNat ≤ 57 ∧
      (digitChar10 d).toNat - 48 = d := by
  interval_cases d <;> decide

theorem parseDigits_digits {n : Nat} (hn : n ≠ 0) :
    parseDigits ((Nat.digits 10 n).reverse.map digitChar10) = some n := by
  · have hne : Nat.digits 10 n ≠ [] := Nat.digits_ne_nil_iff_ne_zero.mpr hn
    have hlt : ∀ d ∈ Nat.digits 10 n, d < 10 := fun d hd =>
      Nat.digits_lt_base (by omega) hd
    have hnonnil : ((Nat.digits 10 n).reverse.map digitChar10) ≠ [] := by
      simp [hne]
    have hall : ((Nat.digits 10 n).reverse.map digitChar10).all
        (fun c => 48 ≤ c.toNat && c.toNat ≤ 57) = true := by
      simp only [List.all_eq_true, List.mem_map, List.mem_reverse]
      rintro c ⟨d, hd, rfl⟩
      have := digitChar10_lt_base (hlt d hd)
      simp [this.1, this.2.1]
    have hback :
        (((Nat.digits 10 n).reverse.map digitChar10).map
          (fun c => c.toNat - 48)).reverse = Nat.digits 10 n := by
      rw [List.map_map, List.map_reverse, List.reverse_reverse]
      conv_rhs => rw [← List.map_id (Nat.digits 10 n)]
      refine List.map_congr_left ?_
      intro d hd
      exact (digitChar10_lt_base (hlt d hd)).2.2
    simp only [parseDigits, hnonnil, if_false, hall, if_true, hback,
      Nat.ofDigits_digits]

theorem listStartsWith_append (p r : List Char) :
    listStartsWith p (p ++ r) = true := by
  induction p with
  | nil => rfl
  | cons c cs ih => simp [listStartsWith, ih]

theorem parse_article_id_mkCustomId (n : Nat) :
    parse_article_id (mkCustomId n) = some n := by
  have hdata : (mkCustomId n).data = "article_".data ++ (natStr n).data := by
    simp [mkCustomId, String.data_append]
  have hpre : listStartsWith "article_".data (mkCustomId n).data = true := by
    rw [hdata]; exact listStartsWith_append _ _
  have hdrop : (mkCustomId n).data.drop 8 = (natStr n).data := by
    rw [hdata]
    have h8 : ("article_".data).length = 8 := by decide
    rw [← h8, List.drop_left]
  rcases Nat.eq_zero_or_pos n with h | h
  · subst h
    simp [parse_article_id, hpre, hdrop, natStr, parseDigits, Nat.ofDigits]
  · have hn : n ≠ 0 := by omega
    simp only [parse_article_id, hpre, if_true, hdrop, natStr, hn, if_false]
    exact parseDigits_digits hn

/-! ## C4 — batch-status mapping and the polling step

From `openai_batch_provider.py` (`_STATUS_MAP`, used via
`_STATUS_MAP.get(batch.status, BatchStatus.PENDING)` in
`check_batch_status`) and from `LLMAnalysisService._poll_batch`. -/

/-- `BatchStatus` from `analysis/base_provider.py`. -/
inductive BatchStatus
  | pending
  | in_progress
  | completed
  | failed
  | expired
  | cancelling
  | cancelled
deriving DecidableEq, Repr

/-- `_STATUS_MAP.get(status, BatchStatus.PENDING)`: the provider-status
string mapped to the internal enum, defaulting to `PENDING`. -/
def statusMap (s : String) : BatchStatus :=
  if s = "validating" then .pending
  else if s = "in_progress" then .in_progress
  else if s = "finalizing" then .in_progress
  else if s = "completed" then .completed
  else if s = "failed" then .failed
  else if s = "expired" then .expired
  else if s = "cancelling" then .cancelling
  else if s = "cancelled" then .cancelled
  else .pending

/-- What one iteration of `_poll_batch` does after reading a status. -/
inductive PollStep
  | retrieveResults
  | raiseError
  | keepWaiting
deriving DecidableEq, Repr

/-- One iteration of `_poll_batch`: retrieve on `COMPLETED`, raise a
`RuntimeError` on `FAILED`, `EXPIRED` or `CANCELLED`, otherwise sleep and
poll again. -/
def pollStep : BatchStatus → PollStep
  | .completed => .retrieveResults
  | .failed => .raiseError
  | .expired => .raiseError
  | .cancelled => .raiseError
  | _ => .keepWaiting

/-- The mapping claimed by the spec: `validating`, `in_progress` and
`finalizing` all go to `IN_PROGRESS` (polling continues); `completed` goes
to `COMPLETED`; `failed`, `expired`, `cancelling` and `cancelled` each
produce a terminal error that aborts polling. -/
def c4ClaimStatement : Prop :=
  statusMap "validating" = .in_progress ∧
  statusMap "in_progress" = .in_progress ∧
  statusMap "finalizing" = .in_progress ∧
  statusMap "completed" = .completed ∧
  (∀ s ∈ ["failed", "expired", "cancelling", "cancelled"],
    pollStep (statusMap s) = .raiseError)

/-- C4, counterexample: the claimed mapping is false on the code.
`_STATUS_MAP` sends `validating` to `PENDING`, not `IN_PROGRESS`, and it
sends `cancelling` to `CANCELLING`, which is not in `_poll_batch`'s
terminal set, so polling continues rather than aborting. -/
theorem c4_status_map_counterexample :
    ¬ c4ClaimStatement ∧
      statusMap "validating" = .pending ∧
      pollStep (statusMap "cancelling") = .keepWaiting := by
  refine ⟨fun h => ?_, by decide, by decide⟩
  have := h.1
  revert this
  decide

/-- C4, amended: `validating` maps to `PENDING` while `in_progress` and
`finalizing` map to `IN_PROGRESS` — all three keep the polling loop
waiting; `completed` maps to `COMPLETED` and the results are retrieved;
`failed`, `expired` and `cancelled` abort polling with an error; but
`cancelling` maps to `CANCELLING`, on which polling continues (the batch
later becomes `cancelled`, which aborts).  Unknown provider statuses
default to `PENDING`. -/
theorem c4_status_map_amended :
    statusMap "validating" = .pending ∧
    statusMap "in_progress" = .in_progress ∧
    statusMap "finalizing" = .in_progress ∧
    pollStep (statusMap "validating") = .keepWaiting ∧
    pollStep (statusMap "in_progress") = .keepWaiting ∧
    pollStep (statusMap "finalizing") = .keepWaiting ∧
    statusMap "completed" = .completed ∧
    pollStep (statusMap "completed") = .retrieveResults ∧
    (∀ s ∈ ["failed", "expired", "cancelled"],
      pollStep (statusMap s) = .raiseError) ∧
    statusMap "cancelling" = .cancelling ∧
    pollStep (statusMap "cancelling") = .keepWaiting := by
  decide

/-! ## C6 — the pending-URL queue's failure transition

From `PendingUrlService.mark_failed` in `pending_url_service.py`.  Time is
abstracted to a `Nat` tick supplied for `datetime.utcnow()`. -/

/-- `UrlStatus` from `app/models.py`. -/
inductive UrlStatus
  | pending
  | processing
  | completed
  | failed
deriving DecidableEq, Repr

/-- A `PendingUrl` row (`app/models.py`); timestamps are abstract ticks. -/
structure PendingUrlRow where
  url : String
  url_hash : String
  source : String
  status : UrlStatus
  retry_count : Nat
  max_retries : Nat
  error_message : Option String
  discovered_at : Nat
  processed_at : Option Nat
  updated_at : Nat
deriving DecidableEq, Repr

/-- `PendingUrlService.mark_failed` applied to an existing row: increment
`retry_count`, store the truncated error message, refresh `updated_at`;
then either finalize as FAILED with `processed_at` set (when
`retry_count >= max_retries` after the increment) or reset to PENDING. -/
def mark_failed (now : Nat) (error_message : String) (r : PendingUrlRow) :
    PendingUrlRow :=
  let r := { r with
    retry_count := r.retry_count + 1
    error_message := if error_message = "" then none
      else some (error_message.take 4096)
    updated_at := now }
  if r.retry_count ≥ r.max_retries then
    { r with status := .failed, processed_at := some now }
  else
    { r with status := .pending }

/-- C6: `mark_failed` increments `retry_count` by one; if the incremented
count reaches `max_retries` the row becomes FAILED with `processed_at` set
to the current time, otherwise it returns to PENDING with `processed_at`
untouched (hence still null for a leased row, whose `processed_at` has
never been set); with `max_retries = 0` a single failure goes directly to
FAILED; and any row produced by `mark_failed` in state FAILED satisfies
`retry_count ≥ max_retries`. -/
theorem c6_mark_failed (now : Nat) (msg : String) (r : PendingUrlRow) :
    (mark_failed now msg r).retry_count = r.retry_count + 1 ∧
    (r.retry_count + 1 ≥ r.max_retries →
      (mark_failed now msg r).status = .failed ∧
      (mark_failed now msg r).processed_at = some now) ∧
    (r.retry_count + 1 < r.max_retries →
      (mark_failed now msg r).status = .pending ∧
      (mark_failed now msg r).processed_at = r.processed_at) ∧
    (r.max_retries = 0 → (mark_failed now msg r).status = .failed) ∧
    ((mark_failed now msg r).status = .failed →
      (mark_failed now msg r).retry_count ≥ (mark_failed now msg r).max_retries) := by
  unfold mark_failed
  by_cases h : r.retry_count + 1 ≥ r.max_retries
  · rw [if_pos h]
    exact ⟨rfl, fun _ => ⟨rfl, rfl⟩, fun hlt => absurd h (by omega), fun _ => rfl,
      fun _ => by simpa using h⟩
  · rw [if_neg h]
    exact ⟨rfl, fun hge => absurd hge h, fun _ => ⟨rfl, rfl⟩,
      fun h0 => absurd h (by omega), fun hf => by simp at hf⟩

/-- Concrete run of `c6_mark_failed`: a freshly leased row with
`max_retries = 0` fails once and lands in FAILED with `processed_at` set. -/
theorem c6_mark_failed_witness :
    (mark_failed 7 "boom"
        ⟨"u", "h", "src", .processing, 0, 0, none, 1, none, 1⟩).status = .failed ∧
    (mark_failed 7 "boom"
        ⟨"u", "h", "src", .processing, 0, 0, none, 1, none, 1⟩).processed_at = some 7 ∧
    (mark_failed 7 "boom"
        ⟨"u", "h", "src", .processing, 0, 3, none, 1, none, 1⟩).status = .pending ∧
    (mark_failed 7 "boom"
        ⟨"u", "h", "src", .processing, 0, 3, none, 1, none, 1⟩).processed_at = none := by
  refine ⟨((c6_mark_failed 7 "boom" _).2.1 (by decide)).1,
    ((c6_mark_failed 7 "boom" _).2.1 (by decide)).2,
    ((c6_mark_failed 7 "boom" _).2.2.1 (by decide)).1, ?_⟩
  have := ((c6_mark_failed 7 "boom"
    (⟨"u", "h", "src", .processing, 0, 3, none, 1, none, 1⟩ : PendingUrlRow)).2.2.1
      (by decide)).2
  simpa using this

/-! ## C7 / C10 — URL enqueue with deduplication

From `PendingUrlService.add_urls` in `pending_url_service.py`.  The MD5
digest `compute_url_hash` is an external library call and is modelled as an
arbitrary function parameter `hash`. -/

/-- The queue-relevant database state: the `url_hash` column of
`news_articles` plus the `pending_urls` rows. -/
structure QueueState where
  articleHashes : List String
  pending : List PendingUrlRow
deriving DecidableEq, Repr

/-- Python-dict insertion (`d[k] = v`): overwrite in place if the key is
present, else append. -/
def dictInsertStr (k v : String) (m : List (String × String)) :
    List (String × String) :=
  if m.any (fun p => p.1 = k) then
    m.map (fun p => if p.1 = k then (k, v) else p)
  else m ++ [(k, v)]

/-- The dict comprehension `{compute_url_hash(url): url for url in urls}`. -/
def urlHashMap (hash : String → String) (urls : List String) :
    List (String × String) :=
  urls.foldl (fun m u => dictInsertStr (hash u) u m) []

/-- Membership of a digest in `existing_article_hashes ∪
existing_pending_hashes` (the two read-pass queries of `add_urls`). -/
def hashKnown (st : QueueState) (h : String) : Bool :=
  st.articleHashes.contains h || st.pending.any (fun p => p.url_hash == h)

/-- `new_hashes` in `add_urls`: the map's keys whose digest is in neither
table. -/
def newHashes (hash : String → String) (urls : List String)
    (st : QueueState) : List String :=
  ((urlHashMap hash urls).map Prod.fst).filter (fun h => !hashKnown st h)

/-- The PENDING rows built and `session.add`ed by the insertion loop of
`add_urls` (`url = url_hash_map[url_hash]`; column defaults from
`app/models.py`). -/
def newPendingRows (hash : String → String) (now : Nat) (urls : List String)
    (source : String) (st : QueueState) : List PendingUrlRow :=
  (newHashes hash urls st).map (fun h =>
    { url := (((urlHashMap hash urls).find? (fun p => p.1 = h)).map Prod.snd).getD ""
      url_hash := h
      source := source
      status := .pending
      retry_count := 0
      max_retries := 3
      error_message := none
      discovered_at := now
      processed_at := none
      updated_at := now })

/-- `PendingUrlService.add_urls`: compute the digest of every URL, drop
digests already present in either table, insert the rest as PENDING rows
and return the number actually added. -/
def add_urls (hash : String → String) (now : Nat) (urls : List String)
    (source : String) (st : QueueState) : Nat × QueueState :=
  if urls = [] then (0, st)
  else
    ((newPendingRows hash now urls source st).length,
      { st with pending := st.pending ++ newPendingRows hash now urls source st })

theorem keys_dictInsertStr (k v : String) (m : List (String × String)) :
    (dictInsertStr k v m).map Prod.fst =
      if m.any (fun p => p.1 = k) then m.map Prod.fst
      else m.map Prod.fst ++ [k] := by
  unfold dictInsertStr
  split
  · rw [List.map_map]
    refine List.map_congr_left ?_
    intro p _
    by_cases h : p.1 = k <;> simp [h]
  · simp

theorem mem_keys_dictInsertStr (a k v : String) (m : List (String × String)) :
    a ∈ (dictInsertStr k v m).map Prod.fst ↔
      a ∈ m.map Prod.fst ∨ a = k := by
  rw [keys_dictInsertStr]
  split
  next h =>
    rcases List.any_eq_true.mp h with ⟨p, hp, he⟩
    simp only [decide_eq_true_eq] at he
    constructor
    · exact fun hm => Or.inl hm
    · rintro (hm | rfl)
      · exact hm
      · exact List.mem_map.mpr ⟨p, hp, he⟩
  · simp

theorem mem_keys_urlHashMap (hash : String → String) (urls : List String)
    (a : String) :
    a ∈ (urlHashMap hash urls).map Prod.fst ↔ ∃ u ∈ urls, hash u = a := by
  suffices h : ∀ m : List (String × String),
      a ∈ (urls.foldl (fun m u => dictInsertStr (hash u) u m) m).map Prod.fst ↔
        a ∈ m.map Prod.fst ∨ ∃ u ∈ urls, hash u = a by
    simpa [urlHashMap] using h []
  induction urls with
  | nil => intro m; simp
  | cons u us ih =>
    intro m
    simp only [List.foldl_cons, ih, mem_keys_dictInsertStr, List.mem_cons]
    constructor
    · rintro ((hm | rfl) | ⟨w, hw, rfl⟩)
      · exact Or.inl hm
      · exact Or.inr ⟨u, Or.inl rfl, rfl⟩
      · exact Or.inr ⟨w, Or.inr hw, rfl⟩
    · rintro (hm | ⟨w, (rfl | hw), rfl⟩)
      · exact Or.inl (Or.inl hm)
      · exact Or.inl (Or.inr rfl)
      · exact Or.inr ⟨w, hw, rfl⟩

theorem nodup_keys_dictInsertStr (k v : String) (m : List (String × String))
    (h : (m.map Prod.fst).Nodup) :
    ((dictInsertStr k v m).map Prod.fst).Nodup := by
  rw [keys_dictInsertStr]
  split
  next => exact h
  next hany =>
    rw [List.nodup_append]
    refine ⟨h, List.nodup_singleton k, ?_⟩
    intro a ha hb
    rw [List.mem_singleton] at hb
    subst hb
    rcases List.mem_map.mp ha with ⟨p, hp, he⟩
    exact hany (List.any_eq_true.mpr ⟨p, hp, by simp [he]⟩)

theorem nodup_keys_urlHashMap (hash : String → String) (urls : List String) :
    ((urlHashMap hash urls).map Prod.fst).Nodup := by
  suffices h : ∀ m : List (String × String), (m.map Prod.fst).Nodup →
      ((urls.foldl (fun m u => dictInsertStr (hash u) u m) m).map Prod.fst).Nodup by
    exact h [] (by simp)
  induction urls with
  | nil => intro m hm; simpa using hm
  | cons u us ih =>
    intro m hm
    exact ih _ (nodup_keys_dictInsertStr _ _ _ hm)

theorem length_eq_of_nodup_mem_iff {α : Type} [DecidableEq α]
    {l₁ l₂ : List α} (h₁ : l₁.Nodup) (h₂ : l₂.Nodup)
    (h : ∀ a, a ∈ l₁ ↔ a ∈ l₂) : l₁.length = l₂.length := by
  rw [← List.toFinset_card_of_nodup h₁, ← List.toFinset_card_of_nodup h₂]
  congr 1
  ext a
  simp [h a]

theorem hashKnown_monotone (st : QueueState) (rows : List PendingUrlRow)
    (h : String) (hk : hashKnown st h = true) :
    hashKnown { st with pending := st.pending ++ rows } h = true := by
  unfold hashKnown at *
  rcases Bool.or_eq_true_iff.mp hk with hartic | hpend
  · exact Bool.or_eq_true_iff.mpr (Or.inl hartic)
  · refine Bool.or_eq_true_iff.mpr (Or.inr ?_)
    rcases List.any_eq_true.mp hpend with ⟨p, hp, he⟩
    exact List.any_eq_true.mpr ⟨p, List.mem_append_left _ hp, he⟩

theorem mem_newHashes (hash : String → String) (urls : List String)
    (st : QueueState) (h : String) :
    h ∈ newHashes hash urls st ↔
      (∃ u ∈ urls, hash u = h) ∧ hashKnown st h = false := by
  unfold newHashes
  rw [List.mem_filter, mem_keys_urlHashMap]
  simp

/-- C7: `add_urls` leaves the article store untouched and appends exactly
the PENDING rows whose digest is known to neither the article store nor the
queue, returning their number; every URL with a fresh digest ends up in the
queue; and a second call with the same URL list adds nothing and leaves the
state unchanged. -/
theorem c7_add_urls_dedup_idempotent (hash : String → String)
    (now now₂ : Nat) (urls : List String) (source : String)
    (st : QueueState) :
    (add_urls hash now urls source st).2.articleHashes = st.articleHashes ∧
    (∃ newRows,
      (add_urls hash now urls source st).2.pending = st.pending ++ newRows ∧
      (add_urls hash now urls source st).1 = newRows.length ∧
      ∀ r ∈ newRows, r.status = .pending ∧ r.source = source ∧
        hashKnown st r.url_hash = false) ∧
    (∀ u ∈ urls, hashKnown st (hash u) = false →
      (add_urls hash now urls source st).2.pending.any
        (fun p => p.url_hash == hash u) = true) ∧
    (add_urls hash now₂ urls source
        (add_urls hash now urls source st).2).1 = 0 ∧
    (add_urls hash now₂ urls source
        (add_urls hash now urls source st).2).2 =
      (add_urls hash now urls source st).2 := by
  by_cases hne : urls = []
  · subst hne
    refine ⟨rfl, ⟨[], by simp [add_urls], by simp [add_urls], by simp⟩,
      by simp, by simp [add_urls], by simp [add_urls]⟩
  · have hstep : add_urls hash now urls source st =
        ((newPendingRows hash now urls source st).length,
          { st with pending := st.pending ++ newPendingRows hash now urls source st }) := by
      rw [add_urls, if_neg hne]
    refine ⟨by rw [hstep], ⟨newPendingRows hash now urls source st,
      by rw [hstep], by rw [hstep], ?_⟩, ?_, ?_⟩
    · intro r hr
      rcases List.mem_map.mp hr with ⟨h, hh, rfl⟩
      exact ⟨rfl, rfl, ((mem_newHashes hash urls st h).mp hh).2⟩
    · intro u hu hfresh
      rw [hstep]
      refine List.any_eq_true.mpr ?_
      have hmem : hash u ∈ newHashes hash urls st :=
        (mem_newHashes hash urls st (hash u)).mpr ⟨⟨u, hu, rfl⟩, hfresh⟩
      refine ⟨_, List.mem_append_right _
        (List.mem_map.mpr ⟨hash u, hmem, rfl⟩), by simp⟩
    · -- second call: every digest of `urls` is now known, so nothing is added
      rw [hstep]
      set st' : QueueState :=
        { st with pending := st.pending ++ newPendingRows hash now urls source st }
        with hst'
      have hallknown : ∀ h ∈ (urlHashMap hash urls).map Prod.fst,
          hashKnown st' h = true := by
        intro h hh
        rcases (mem_keys_urlHashMap hash urls h).mp hh with ⟨u, hu, rfl⟩
        by_cases hk : hashKnown st (hash u) = true
        · exact hashKnown_monotone st _ _ hk
        · have hfresh : hashKnown st (hash u) = false :=
            Bool.eq_false_iff.mpr hk
          have hmem : hash u ∈ newHashes hash urls st :=
            (mem_newHashes hash urls st (hash u)).mpr ⟨⟨u, hu, rfl⟩, hfresh⟩
          refine Bool.or_eq_true_iff.mpr (Or.inr (List.any_eq_true.mpr ?_))
          exact ⟨_, List.mem_append_right _
            (List.mem_map.mpr ⟨hash u, hmem, rfl⟩), by simp⟩
      have hnil : newHashes hash urls st' = [] := by
        rw [newHashes, List.filter_eq_nil_iff]
        intro h hh
        simp [hallknown h hh]
      have hrows : newPendingRows hash now₂ urls source st' = [] := by
        rw [newPendingRows, hnil]; rfl
      constructor
      · rw [add_urls, if_neg hne, hrows]; rfl
      · rw [add_urls, if_neg hne, hrows]
        cases st'
        simp

/-- Concrete run of `c7_add_urls_dedup_idempotent` with the identity digest:
a fresh URL is enqueued by the first call and the second call is a no-op. -/
theorem c7_add_urls_witness :
    (add_urls (fun s => s) 1 ["u1"] "src"
        ⟨["a1"], []⟩).2.pending.any (fun p => p.url_hash == "u1") = true ∧
    (add_urls (fun s => s) 2 ["u1"] "src"
        (add_urls (fun s => s) 1 ["u1"] "src" ⟨["a1"], []⟩).2).1 = 0 := by
  refine ⟨(c7_add_urls_dedup_idempotent (fun s => s) 1 2 ["u1"] "src"
      ⟨["a1"], []⟩).2.2.1 "u1" (by decide) (by decide),
    (c7_add_urls_dedup_idempotent (fun s => s) 1 2 ["u1"] "src"
      ⟨["a1"], []⟩).2.2.2.1⟩

/-- C10: within a single call, duplicate URLs collapse through the digest
dict: the rows inserted carry pairwise distinct digests and the returned
count is the number of distinct digests of the input that are new to both
tables. -/
theorem c10_add_urls_distinct_count (hash : String → String) (now : Nat)
    (urls : List String) (source : String) (st : QueueState) :
    (((add_urls hash now urls source st).2.pending.drop
        st.pending.length).map PendingUrlRow.url_hash).Nodup ∧
    (add_urls hash now urls source st).1 =
      ((urls.map hash).dedup.filter (fun h => !hashKnown st h)).length := by
  by_cases hne : urls = []
  · subst hne; simp [add_urls]
  · have hstep : add_urls hash now urls source st =
        ((newPendingRows hash now urls source st).length,
          { st with pending := st.pending ++ newPendingRows hash now urls source st }) := by
      rw [add_urls, if_neg hne]
    have hhashes : (newPendingRows hash now urls source st).map
        PendingUrlRow.url_hash = newHashes hash urls st := by
      rw [newPendingRows, List.map_map]
      exact List.map_id'' (fun x => rfl) _
    have hnodup : (newHashes hash urls st).Nodup :=
      (nodup_keys_urlHashMap hash urls).filter _
    constructor
    · rw [hstep]
      simp only [List.drop_left, hhashes]
      exact hnodup
    · rw [hstep]
      simp only [newPendingRows, List.length_map]
      refine length_eq_of_nodup_mem_iff hnodup
        (((urls.map hash).nodup_dedup).filter _) ?_
      intro a
      rw [mem_newHashes, List.mem_filter, List.mem_dedup, List.mem_map]
      simp

/-- Concrete run of `c10_add_urls_distinct_count`: the same URL three times
(plus one known URL) inserts one row and returns 1. -/
theorem c10_add_urls_witness :
    (add_urls (fun s => s) 1 ["u1", "u1", "a1", "u1"] "src"
        ⟨["a1"], []⟩).1 = 1 := by
  rw [(c10_add_urls_distinct_count (fun s => s) 1 ["u1", "u1", "a1", "u1"]
    "src" ⟨["a1"], []⟩).2]
  decide

/-! ## C5 — tags serialization: writers and readers

Writers: the article-crawl commit
(`crawler_service._execute_article_crawler`) stores
`json.dumps(article_data.tags, ensure_ascii=False)`; the reparse job
(`reparse_service._run_reparse_job`) stores `",".flatten(parsed.tags)`.
Readers: `TimescaleStore._parse_keywords` tries a JSON parse and falls back
to comma-split; `RuleFilterService._get_field_value` tries a JSON parse and
falls back to the raw string.

`json.dumps` / `json.loads` are standard-library calls; they are modelled
here for JSON arrays of strings whose characters need no escaping (other
JSON values are modelled as parse failures, which coincides with the
fallback behaviour the claims are about). -/

/-- The character list of `json.dumps` of a list of strings, after the
opening `[`: items are quoted and separated by `", "`, and the closing `]`
is included. -/
def jsonItemsChars : List String → List Char
  | [] => [']']
  | [t] => '"' :: t.data ++ ['"', ']']
  | t :: ts => '"' :: t.data ++ ['"', ',', ' '] ++ jsonItemsChars ts

/-- `json.dumps(tags, ensure_ascii=False)` for a list of strings without
characters needing escapes. -/
def jsonDumpsList (tags : List String) : String :=
  ⟨'[' :: jsonItemsChars tags⟩

/-- Skip JSON/Python whitespace. -/
def skipWsChars (l : List Char) : List Char := l.dropWhile isPyWs

/-- Parse the body of a JSON string literal up to the closing quote
(escape-free model). -/
def parseJsonStringBody : List Char → Option (List Char × List Char)
  | [] => none
  | c :: rest =>
    if c = '"' then some ([], rest)
    else (parseJsonStringBody rest).map (fun p => (c :: p.1, p.2))

/-- Parse a JSON string literal including its opening quote. -/
def parseJsonStringChars : List Char → Option (List Char × List Char)
  | [] => none
  | c :: rest => if c = '"' then parseJsonStringBody rest else none

/-- Parse the comma-separated items of a JSON array up to the closing
bracket; `fuel` bounds the number of items. -/
def parseJsonItemsAux : Nat → List Char → Option (List String × List Char)
  | 0, _ => none
  | fuel + 1, l =>
    match parseJsonStringChars l with
    | none => none
    | some (s, rest) =>
      match skipWsChars rest with
      | [] => none
      | c :: r =>
        if c = ']' then some ([⟨s⟩], r)
        else if c = ',' then
          match parseJsonItemsAux fuel (skipWsChars r) with
          | none => none
          | some (ss, r2) => some ((⟨s⟩ : String) :: ss, r2)
        else none

/-- Parse the remainder of a JSON array after the opening bracket (input
already whitespace-skipped). -/
def parseAfterBracketAux : List Char → Option (List String)
  | [] => none
  | c :: r =>
    if c = ']' then (if (skipWsChars r).isEmpty then some [] else none)
    else
      (parseJsonItemsAux (c :: r).length (c :: r)).bind
        (fun p => if (skipWsChars p.2).isEmpty then some p.1 else none)

/-- Parse a whole JSON array from a whitespace-skipped character list. -/
def parseArrayChars : List Char → Option (List String)
  | [] => none
  | c :: rest =>
    if c = '[' then parseAfterBracketAux (skipWsChars rest) else none

/-- `json.loads` restricted to JSON arrays of strings: `some` exactly when
the whole input is such an array (anything else — including other JSON
values — is a parse failure, i.e. takes the readers' fallback path). -/
def parseJsonArray (s : String) : Option (List String) :=
  parseArrayChars (skipWsChars s.data)

/-- Python's `s.split(",")` on the character list: split at every comma,
keeping empty pieces. -/
def splitOnComma : List Char → List (List Char)
  | [] => [[]]
  | c :: rest =>
    match splitOnComma rest with
    | [] => [[]]
    | p :: ps => if c = ',' then [] :: p :: ps else (c :: p) :: ps

/-- `",".flatten(tags)` on character lists. -/
def commaJoinChars : List String → List Char
  | [] => []
  | [t] => t.data
  | t :: ts => t.data ++ ',' :: commaJoinChars ts

/-- `",".flatten(tags)`. -/
def commaJoin (tags : List String) : String :=
  ⟨commaJoinChars tags⟩

/-- `TimescaleStore._parse_keywords`: empty for a null/empty column; JSON
array parse first (stripping each item and dropping empties), falling back
to comma-split (stripping each piece and dropping empties). -/
def parse_keywords (tags : Option String) : List String :=
  match tags with
  | none => []
  | some s =>
    if s = "" then []
    else
      match parseJsonArray s with
      | some l => (l.map pyStrip).filter (fun t => t ≠ "")
      | none =>
        (((splitOnComma s.data).map stripChars).filter
          (fun l => l ≠ [])).map (fun l => (⟨l⟩ : String))

/-- The `tags` column value written by the article-crawl commit
(`crawler_service.py`): `json.dumps(article_data.tags, ensure_ascii=False)
if article_data.tags else None`. -/
def crawlTagsValue (tags : List String) : Option String :=
  if tags = [] then none else some (jsonDumpsList tags)

/-- The `tags` column value after the reparse overwrite
(`reparse_service.py`): `if parsed.tags: article.tags =
",".flatten(parsed.tags)` — the old value survives when the parser returned
no tags. -/
def reparseTagsValue (old : Option String) (tags : List String) :
    Option String :=
  if tags = [] then old else some (commaJoin tags)

/-- A tag character that needs no JSON escaping, does not collide with the
comma separator, is not whitespace, and cannot make a comma-joined list
look like a JSON array. -/
def goodTagChar (c : Char) : Bool :=
  !(c = '"' || c = '\\' || c = ',' || c = '[' || isPyWs c)

theorem parseJsonStringBody_append (t rest : List Char)
    (h : ∀ c ∈ t, ¬ c = '"') :
    parseJsonStringBody (t ++ '"' :: rest) = some (t, rest) := by
  induction t with
  | nil => simp [parseJsonStringBody]
  | cons c cs ih =>
    have hc : ¬ c = '"' := h c (List.mem_cons_self _ _)
    have ih' := ih (fun d hd => h d (List.mem_cons_of_mem _ hd))
    simp [parseJsonStringBody, hc, ih']

theorem skipWsChars_cons_of_not_ws {c : Char} (l : List Char)
    (h : ¬ isPyWs c = true) : skipWsChars (c :: l) = c :: l := by
  simp [skipWsChars, List.dropWhile_cons, h]

theorem jsonItemsChars_head (ts : List String) (h : ts ≠ []) :
    ∃ u, jsonItemsChars ts = '"' :: u := by
  match ts with
  | [] => exact absurd rfl h
  | [t] => exact ⟨_, rfl⟩
  | t :: t₂ :: ts => exact ⟨_, rfl⟩

theorem length_le_jsonItemsChars (ts : List String) :
    ts.length ≤ (jsonItemsChars ts).length := by
  match ts with
  | [] => simp [jsonItemsChars]
  | [t] => simp [jsonItemsChars]
  | t :: t₂ :: ts =>
    have ih := length_le_jsonItemsChars (t₂ :: ts)
    simp only [jsonItemsChars, List.length_cons, List.length_append] at *
    omega

theorem string_mk_data (s : String) : (⟨s.data⟩ : String) = s := rfl

theorem parseJsonItemsAux_enc (fuel : Nat) (ts : List String)
    (hne : ts ≠ []) (hfuel : ts.length ≤ fuel)
    (hq : ∀ t ∈ ts, ∀ c ∈ t.data, ¬ c = '"') :
    parseJsonItemsAux fuel (jsonItemsChars ts) = some (ts, []) := by
  match fuel, ts with
  | 0, ts =>
    rw [Nat.le_zero, List.length_eq_zero] at hfuel
    exact absurd hfuel hne
  | fuel + 1, [] => exact absurd rfl hne
  | fuel + 1, [t] =>
    have hbody := parseJsonStringBody_append t.data [']']
      (hq t (by simp))
    have harr : jsonItemsChars [t] = '"' :: (t.data ++ '"' :: [']']) := by
      simp [jsonItemsChars]
    rw [harr]
    simp only [parseJsonItemsAux, parseJsonStringChars, if_true]
    have hb : parseJsonStringBody (t.data ++ '"' :: [']']) =
        some (t.data, [']']) := hbody
    rw [hb]
    have hsk : skipWsChars [']'] = [']'] :=
      skipWsChars_cons_of_not_ws [] (by decide)
    simp [hsk, string_mk_data]
  | fuel + 1, t :: t₂ :: ts =>
    have hbody := parseJsonStringBody_append t.data
      (',' :: ' ' :: jsonItemsChars (t₂ :: ts)) (hq t (by simp))
    have hassoc : jsonItemsChars (t :: t₂ :: ts) =
        '"' :: (t.data ++ '"' :: (',' :: ' ' :: jsonItemsChars (t₂ :: ts))) := by
      simp [jsonItemsChars]
    rcases jsonItemsChars_head (t₂ :: ts) (by simp) with ⟨u, hu⟩
    have hsk1 : skipWsChars (',' :: ' ' :: jsonItemsChars (t₂ :: ts)) =
        ',' :: ' ' :: jsonItemsChars (t₂ :: ts) :=
      skipWsChars_cons_of_not_ws _ (by decide)
    have hsk2 : skipWsChars (' ' :: jsonItemsChars (t₂ :: ts)) =
        jsonItemsChars (t₂ :: ts) := by
      rw [skipWsChars, List.dropWhile_cons,
        if_pos (by decide : isPyWs ' ' = true), hu, List.dropWhile_cons,
        if_neg (by decide : ¬ isPyWs '"' = true)]
    have ih := parseJsonItemsAux_enc fuel (t₂ :: ts) (by simp)
      (by simp only [List.length_cons] at hfuel ⊢; omega)
      (fun x hx => hq x (List.mem_cons_of_mem _ hx))
    rw [hassoc]
    simp only [parseJsonItemsAux, parseJsonStringChars, if_true]
    rw [hbody]
    simp only [hsk1]
    rw [if_neg (by decide : ¬ (',' : Char) = ']'), if_pos trivial, hsk2, ih,
      string_mk_data]

theorem parseJsonArray_jsonDumpsList (ts : List String)
    (hq : ∀ t ∈ ts, ∀ c ∈ t.data, ¬ c = '"') :
    parseJsonArray (jsonDumpsList ts) = some ts := by
  match ts with
  | [] => rfl
  | t :: ts =>
    have hdata : (jsonDumpsList (t :: ts)).data =
        '[' :: jsonItemsChars (t :: ts) := rfl
    rcases jsonItemsChars_head (t :: ts) (by simp) with ⟨u, hu⟩
    have hitems := parseJsonItemsAux_enc
      (jsonItemsChars (t :: ts)).length (t :: ts) (by simp)
      (length_le_jsonItemsChars _) hq
    rw [parseJsonArray, hdata, skipWsChars_cons_of_not_ws _ (by decide),
      parseArrayChars, if_pos rfl, hu,
      skipWsChars_cons_of_not_ws _ (by decide), parseAfterBracketAux,
      if_neg (by decide : ¬ ('"' : Char) = ']'), ← hu, hitems]
    simp [skipWsChars]

theorem parseJsonArray_none_of_head (s : String) (c : Char) (l : List Char)
    (hdata : s.data = c :: l) (hws : ¬ isPyWs c = true) (hbr : ¬ c = '[') :
    parseJsonArray s = none := by
  rw [parseJsonArray, hdata, skipWsChars_cons_of_not_ws l hws,
    parseArrayChars, if_neg hbr]

theorem splitOnComma_ne_nil (l : List Char) : splitOnComma l ≠ [] := by
  match l with
  | [] => simp [splitOnComma]
  | c :: rest =>
    have := splitOnComma_ne_nil rest
    rw [splitOnComma]
    match h : splitOnComma rest with
    | [] => exact absurd h this
    | p :: ps =>
      by_cases hc : c = ',' <;> simp [hc]

theorem splitOnComma_nocomma (t : List Char) (h : ∀ c ∈ t, ¬ c = ',') :
    splitOnComma t = [t] := by
  induction t with
  | nil => rfl
  | cons c cs ih =>
    have hc : ¬ c = ',' := h c (List.mem_cons_self _ _)
    have ih' := ih (fun d hd => h d (List.mem_cons_of_mem _ hd))
    rw [splitOnComma, ih']
    simp [hc]

theorem splitOnComma_append (t rest : List Char) (h : ∀ c ∈ t, ¬ c = ',') :
    splitOnComma (t ++ ',' :: rest) = t :: splitOnComma rest := by
  induction t with
  | nil =>
    rw [List.nil_append, splitOnComma]
    match hs : splitOnComma rest with
    | [] => exact absurd hs (splitOnComma_ne_nil rest)
    | p :: ps => simp
  | cons c cs ih =>
    have hc : ¬ c = ',' := h c (List.mem_cons_self _ _)
    have ih' := ih (fun d hd => h d (List.mem_cons_of_mem _ hd))
    rw [List.cons_append, splitOnComma, ih']
    simp [hc]

theorem splitOnComma_commaJoin (ts : List String) (hne : ts ≠ [])
    (h : ∀ t ∈ ts, ∀ c ∈ t.data, ¬ c = ',') :
    splitOnComma (commaJoinChars ts) = ts.map String.data := by
  match ts with
  | [] => exact absurd rfl hne
  | [t] =>
    rw [commaJoinChars, splitOnComma_nocomma t.data (h t (by simp))]
    rfl
  | t :: t₂ :: ts =>
    have ih := splitOnComma_commaJoin (t₂ :: ts) (List.cons_ne_nil _ _)
      (fun x hx => h x (List.mem_cons_of_mem _ hx))
    rw [show commaJoinChars (t :: t₂ :: ts) =
        t.data ++ ',' :: commaJoinChars (t₂ :: ts) from rfl,
      splitOnComma_append t.data _ (h t (by simp)), ih]
    rfl

theorem dropWhile_eq_self_of_clean (l : List Char)
    (h : ∀ c ∈ l, ¬ isPyWs c = true) : l.dropWhile isPyWs = l := by
  match l with
  | [] => rfl
  | c :: rest =>
    rw [List.dropWhile_cons, if_neg (h c (List.mem_cons_self _ _))]

theorem stripChars_eq_self (l : List Char)
    (h : ∀ c ∈ l, ¬ isPyWs c = true) : stripChars l = l := by
  rw [stripChars, dropWhile_eq_self_of_clean l h,
    dropWhile_eq_self_of_clean l.reverse (fun c hc => h c (List.mem_reverse.mp hc)),
    List.reverse_reverse]

theorem goodTagChar_spec {c : Char} (h : goodTagChar c = true) :
    ¬ c = '"' ∧ ¬ c = ',' ∧ ¬ c = '[' ∧ ¬ isPyWs c = true := by
  rw [goodTagChar] at h
  simp only [Bool.not_eq_eq_eq_not, Bool.not_true, Bool.or_eq_false_iff,
    decide_eq_false_iff_not] at h
  refine ⟨h.1.1.1.1, h.1.1.2, h.1.2, ?_⟩
  simp [h.2]

/-- A well-behaved tag list: every tag is non-empty and made of
`goodTagChar` characters. -/
def cleanTags (ts : List String) : Prop :=
  ∀ t ∈ ts, t ≠ "" ∧ ∀ c ∈ t.data, goodTagChar c = true

theorem clean_map_strip (ts : List String) (hclean : cleanTags ts) :
    (ts.map pyStrip).filter (fun t => t ≠ "") = ts := by
  have hmap : ts.map pyStrip = ts := by
    have hcongr : ts.map pyStrip = ts.map id := by
      refine List.map_congr_left ?_
      intro t ht
      rcases hclean t ht with ⟨_, hchars⟩
      show (⟨stripChars t.data⟩ : String) = t
      rw [stripChars_eq_self t.data
        (fun c hc => (goodTagChar_spec (hchars c hc)).2.2.2)]
    rw [hcongr, List.map_id]
  rw [hmap]
  refine List.filter_eq_self.mpr ?_
  intro t ht
  exact decide_eq_true ((hclean t ht).1)

/-! ## C8 / C9 — rule-based article filtering

From `rule_filter_service.py`.  `re.search(pattern, value, re.IGNORECASE)`
is an external library call, modelled as an oracle `regex : pattern →
value → Bool`; both claims hold for every oracle.  The rules list is the
result of `get_active_rules()` interleaved with the inactive rows, in
query order; rule `config` JSON payloads are modelled already decoded,
with the `.get` defaults of the source. -/

/-- A `news_articles` row, restricted to the columns the filter reads. -/
structure NewsArticleRow where
  id : Nat
  title : Option String
  content : Option String
  summary : Option String
  category : Option String
  sub_category : Option String
  tags : Option String
deriving DecidableEq, Repr

/-- `FilterDecision` from `app/models.py`. -/
inductive FilterDecision
  | keep
  | filter
  | force_include
deriving DecidableEq, Repr

/-- `FilterRuleType` from `app/models.py`. -/
inductive FilterRuleType
  | keyword
  | pattern
  | category
deriving DecidableEq, Repr

/-- A decoded rule `config` payload, with the `config.get(...)` defaults
of `rule_filter_service.py`. -/
structure RuleConfig where
  keywords : List String := []
  match_fields : List String := ["title"]
  patterns : List String := []
  exclude_keywords : List String := []
  categories : List String := []
  sub_categories : List String := []
deriving DecidableEq, Repr

/-- A `filter_rules` row. -/
structure FilterRule where
  name : String
  description : Option String
  rule_type : FilterRuleType
  is_active : Bool
  config : RuleConfig
  total_filtered_count : Nat
deriving DecidableEq, Repr

/-- `RuleFilterService._get_field_value`: the named article field as a
string; the `tags` branch JSON-parses and space-joins a JSON array,
falling back to the raw column value. -/
def get_field_value (a : NewsArticleRow) (field : String) : String :=
  if field = "title" then a.title.getD ""
  else if field = "tags" then
    match a.tags with
    | none => ""
    | some s =>
      if s = "" then ""
      else
        match parseJsonArray s with
        | some l => String.intercalate " " l
        | none => s
  else if field = "category" then a.category.getD ""
  else if field = "sub_category" then a.sub_category.getD ""
  else if field = "summary" then a.summary.getD ""
  else if field = "content" then a.content.getD ""
  else ""

/-- `RuleFilterService._apply_keyword_rule`. -/
def apply_keyword_rule (a : NewsArticleRow) (config : RuleConfig) : Bool :=
  config.match_fields.any (fun field =>
    config.keywords.any (fun keyword =>
      containsSub (get_field_value a field) keyword))

/-- `RuleFilterService._apply_pattern_rule`: exclude keywords first — any
hit means the rule does not match; otherwise regex-search every pattern
against every selected field. -/
def apply_pattern_rule (regex : String → String → Bool)
    (a : NewsArticleRow) (config : RuleConfig) : Bool :=
  if config.match_fields.any (fun field =>
      config.exclude_keywords.any (fun keyword =>
        containsSub (get_field_value a field) keyword)) then
    false
  else
    config.match_fields.any (fun field =>
      config.patterns.any (fun pattern => regex pattern (get_field_value a field)))

/-- `RuleFilterService._apply_category_rule`. -/
def apply_category_rule (a : NewsArticleRow) (config : RuleConfig) : Bool :=
  (match a.category with
   | none => false
   | some c => !(c == "") && config.categories.contains c) ||
  (match a.sub_category with
   | none => false
   | some c => !(c == "") && config.sub_categories.contains c)

/-- The `_rule_handlers` dispatch on `rule_type`. -/
def ruleMatches (regex : String → String → Bool) (a : NewsArticleRow)
    (r : FilterRule) : Bool :=
  match r.rule_type with
  | .keyword => apply_keyword_rule a r.config
  | .pattern => apply_pattern_rule regex a r.config
  | .category => apply_category_rule a r.config

/-- `RuleFilterResult` from `rule_filter_service.py`. -/
structure RuleFilterResult where
  decision : FilterDecision
  rule_name : Option String := none
  reason : Option String := none
deriving DecidableEq, Repr

/-- The loop over active rules in `filter_article`: the first active
matching rule gets its `total_filtered_count` incremented and yields a
FILTER decision; otherwise KEEP.  Returns the result together with the
rules list as mutated in the session. -/
def filterLoop (regex : String → String → Bool) (a : NewsArticleRow) :
    List FilterRule → RuleFilterResult × List FilterRule
  | [] => (⟨.keep, none, some "通過所有規則檢查"⟩, [])
  | r :: rest =>
    if r.is_active && ruleMatches regex a r then
      (⟨.filter, some r.name, r.description⟩,
        { r with total_filtered_count := r.total_filtered_count + 1 } :: rest)
    else
      let p := filterLoop regex a rest
      (p.1, r :: p.2)

/-- `RuleFilterService.filter_article`: force-include short-circuit, then
the first matching active rule, else KEEP. -/
def filter_article (regex : String → String → Bool)
    (force_include_ids : List Nat) (a : NewsArticleRow)
    (rules : List FilterRule) : RuleFilterResult × List FilterRule :=
  if force_include_ids.contains a.id then
    (⟨.force_include, some "force_include", some "文章已被標記為強制納入"⟩, rules)
  else filterLoop regex a rules

/-- An `article_filter_results` row as built by `filter_articles_batch`. -/
structure ArticleFilterResultRow where
  article_id : Nat
  decision : FilterDecision
  rule_name : Option String
  reason : Option String
deriving DecidableEq, Repr

/-- One step of the `filter_articles_batch` loop. -/
def batchStep (regex : String → String → Bool)
    (force_include_ids : List Nat)
    (acc : List NewsArticleRow × List ArticleFilterResultRow × List FilterRule)
    (a : NewsArticleRow) :
    List NewsArticleRow × List ArticleFilterResultRow × List FilterRule :=
  let p := filter_article regex force_include_ids a acc.2.2
  let passed :=
    if p.1.decision = .keep || p.1.decision = .force_include then
      acc.1 ++ [a]
    else acc.1
  (passed, acc.2.1 ++ [⟨a.id, p.1.decision, p.1.rule_name, p.1.reason⟩], p.2)

/-- `RuleFilterService.filter_articles_batch`: filter each article in
order, collecting survivors (KEEP or FORCE_INCLUDE) and one filter-result
row per article, threading the rule-statistics mutations. -/
def filter_articles_batch (regex : String → String → Bool)
    (force_include_ids : List Nat) (articles : List NewsArticleRow)
    (rules : List FilterRule) :
    List NewsArticleRow × List ArticleFilterResultRow × List FilterRule :=
  articles.foldl (batchStep regex force_include_ids) ([], [], rules)

theorem batch_passed_mono (regex : String → String → Bool)
    (force_include_ids : List Nat) (articles : List NewsArticleRow)
    (acc : List NewsArticleRow × List ArticleFilterResultRow × List FilterRule)
    (x : NewsArticleRow) (hx : x ∈ acc.1) :
    x ∈ (articles.foldl (batchStep regex force_include_ids) acc).1 := by
  induction articles generalizing acc with
  | nil => exact hx
  | cons a rest ih =>
    rw [List.foldl_cons]
    refine ih _ ?_
    show x ∈ (batchStep regex force_include_ids acc a).1
    rw [batchStep]
    split
    · exact List.mem_append_left _ hx
    · exact hx

/-- C8: an article on the force-include list is decided FORCE_INCLUDE with
rule name `"force_include"` before any rule runs (no rule's
`total_filtered_count` changes), and the batch keeps it among the
survivors; an article not on the list whose first active matching rule is
`r` is decided FILTER with `r`'s name, and exactly `r`'s
`total_filtered_count` is incremented. -/
theorem c8_force_include_and_first_rule (regex : String → String → Bool)
    (force_include_ids : List Nat) (a : NewsArticleRow)
    (rules : List FilterRule) :
    (force_include_ids.contains a.id = true →
      filter_article regex force_include_ids a rules =
        (⟨.force_include, some "force_include", some "文章已被標記為強制納入"⟩,
          rules)) ∧
    (force_include_ids.contains a.id = true →
      ∀ articles, a ∈ articles →
        a ∈ (filter_articles_batch regex force_include_ids articles rules).1) ∧
    (force_include_ids.contains a.id = false →
      ∀ pre r post, rules = pre ++ r :: post →
        (∀ x ∈ pre, (x.is_active && ruleMatches regex a x) = false) →
        (r.is_active && ruleMatches regex a r) = true →
        filter_article regex force_include_ids a rules =
          (⟨.filter, some r.name, r.description⟩,
            pre ++ { r with total_filtered_count := r.total_filtered_count + 1 }
              :: post)) := by
  refine ⟨?_, ?_, ?_⟩
  · intro hforce
    rw [filter_article, if_pos hforce]
  · intro hforce articles hmem
    have main : ∀ arts : List NewsArticleRow, a ∈ arts →
        ∀ acc, a ∈ (arts.foldl (batchStep regex force_include_ids) acc).1 := by
      intro arts
      induction arts with
      | nil => intro hmem' acc; exact absurd hmem' (List.not_mem_nil a)
      | cons b rest ih =>
        intro hmem' acc
        rw [List.foldl_cons]
        rcases List.mem_cons.mp hmem' with rfl | hrest
        · refine batch_passed_mono _ _ _ _ a ?_
          show a ∈ (batchStep regex force_include_ids acc a).1
          simp only [batchStep]
          have hdec : (filter_article regex force_include_ids a acc.2.2).1.decision =
              .force_include := by
            rw [filter_article, if_pos hforce]
          rw [hdec]
          simp
        · exact ih hrest (batchStep regex force_include_ids acc b)
    exact main articles hmem ([], [], rules)
  · intro hforce pre r post hsplit hpre hr
    rw [filter_article, if_neg (by simp_all), hsplit]
    clear hsplit
    induction pre with
    | nil =>
      rw [List.nil_append, List.nil_append, filterLoop, if_pos hr]
    | cons x xs ih =>
      have hx : (x.is_active && ruleMatches regex a x) = false :=
        hpre x (List.mem_cons_self _ _)
      have ih' := ih (fun y hy => hpre y (List.mem_cons_of_mem _ hy))
      rw [List.cons_append, List.cons_append, filterLoop, if_neg (by simp [hx]),
        ih']

/-- Concrete run of `c8_force_include_and_first_rule`: with article 5 on
the force-include list the decision is FORCE_INCLUDE and no counter moves;
without it, the single active keyword rule fires and its counter becomes
3. -/
theorem c8_force_include_witness :
    (filter_article (fun _ _ => false) [5]
        ⟨5, some "hello world", none, none, none, none, none⟩
        [⟨"kw", none, .keyword, true, ⟨["hello"], ["title"], [], [], [], []⟩, 2⟩]).1.decision
        = .force_include ∧
    (filter_article (fun _ _ => false) []
        ⟨5, some "hello world", none, none, none, none, none⟩
        [⟨"kw", none, .keyword, true, ⟨["hello"], ["title"], [], [], [], []⟩, 2⟩]) =
      (⟨.filter, some "kw", none⟩,
        [⟨"kw", none, .keyword, true, ⟨["hello"], ["title"], [], [], [], []⟩, 3⟩]) := by
  constructor
  · rw [(c8_force_include_and_first_rule (fun _ _ => false) [5] _ _).1 (by decide)]
  · exact (c8_force_include_and_first_rule (fun _ _ => false) [] _ _).2.2
      (by decide) [] _ [] rfl (by simp) (by decide)

/-- C9: a PATTERN rule one of whose exclude keywords occurs in a selected
field does not match, whatever the regex oracle says about its patterns;
and an article matched by no active rule (and not force-included) is
decided KEEP with the rules left unchanged. -/
theorem c9_exclude_keywords_and_keep (regex : String → String → Bool)
    (a : NewsArticleRow) :
    (∀ config : RuleConfig,
      config.match_fields.any (fun field =>
        config.exclude_keywords.any (fun keyword =>
          containsSub (get_field_value a field) keyword)) = true →
      apply_pattern_rule regex a config = false) ∧
    (∀ force_include_ids rules,
      force_include_ids.contains a.id = false →
      (∀ r ∈ rules, r.is_active = true → ruleMatches regex a r = false) →
      (filter_article regex force_include_ids a rules).1.decision = .keep ∧
      (filter_article regex force_include_ids a rules).2 = rules) := by
  constructor
  · intro config hexc
    rw [apply_pattern_rule, if_pos hexc]
  · intro force_include_ids rules hforce hnone
    rw [filter_article, if_neg (by simp_all)]
    induction rules with
    | nil => exact ⟨rfl, rfl⟩
    | cons r rest ih =>
      have hcond : (r.is_active && ruleMatches regex a r) = false := by
        by_cases hact : r.is_active = true
        · simp [hact, hnone r (List.mem_cons_self _ _) hact]
        · simp [Bool.eq_false_iff.mpr hact]
      have ih' := ih (fun y hy hact => hnone y (List.mem_cons_of_mem _ hy) hact)
      rw [filterLoop, if_neg (by simp [hcond])]
      refine ⟨?_, ?_⟩
      · show (filterLoop regex a rest).1.decision = .keep
        exact ih'.1
      · show r :: (filterLoop regex a rest).2 = r :: rest
        rw [ih'.2]

/-- Concrete run of `c9_exclude_keywords_and_keep`: the routine-weather
rule's exclude keyword `"颱風"` occurs in the title, so the rule does not
match even though the regex oracle answers true, and the article is kept
with the rule row unchanged. -/
theorem c9_exclude_keywords_witness :
    apply_pattern_rule (fun _ _ => true)
      ⟨7, some "颱風天氣預報", none, none, none, none, none⟩
      ⟨[], ["title"], ["天氣預報"], ["颱風"], [], []⟩ = false ∧
    (filter_article (fun _ _ => true) []
        ⟨7, some "颱風天氣預報", none, none, none, none, none⟩
        [⟨"weather", none, .pattern, true,
          ⟨[], ["title"], ["天氣預報"], ["颱風"], [], []⟩, 0⟩]).1.decision = .keep := by
  have hexc : (⟨[], ["title"], ["天氣預報"], ["颱風"], [], []⟩ : RuleConfig).match_fields.any
      (fun field =>
        (⟨[], ["title"], ["天氣預報"], ["颱風"], [], []⟩ : RuleConfig).exclude_keywords.any
          (fun keyword =>
            containsSub (get_field_value
              ⟨7, some "颱風天氣預報", none, none, none, none, none⟩ field) keyword)) =
      true := by decide
  have h1 := (c9_exclude_keywords_and_keep (fun _ _ => true)
    ⟨7, some "颱風天氣預報", none, none, none, none, none⟩).1 _ hexc
  refine ⟨h1, ?_⟩
  refine ((c9_exclude_keywords_and_keep (fun _ _ => true)
    ⟨7, some "颱風天氣預報", none, none, none, none, none⟩).2 [] _ (by decide) ?_).1
  intro r hr hact
  rw [List.mem_singleton] at hr
  subst hr
  show apply_pattern_rule (fun _ _ => true) _ _ = false
  exact h1

/-- The uniform-write property C5 asserts: every `tags` value written by
the system — the article-crawl commit and the reparse overwrite alike —
is a JSON array string. -/
def c5ClaimStatement : Prop :=
  ∀ (old : Option String) (tags : List String), tags ≠ [] →
    (∀ s, crawlTagsValue tags = some s → (parseJsonArray s).isSome = true) ∧
    (∀ s, reparseTagsValue old tags = some s → (parseJsonArray s).isSome = true)

/-- C5, counterexample: the reparse overwrite stores
`",".flatten(parsed.tags)`, which is not a JSON array string — for tags
`["a", "b"]` it writes `"a,b"`, which no JSON-array parse accepts. -/
theorem c5_tags_write_counterexample :
    ¬ c5ClaimStatement ∧
    reparseTagsValue none ["a", "b"] = some "a,b" ∧
    parseJsonArray "a,b" = none := by
  refine ⟨fun h => ?_, by decide, by decide⟩
  have h2 := (h none ["a", "b"] (by decide)).2 "a,b" (by decide)
  exact absurd h2 (by decide)

theorem commaJoinChars_cons (t : String) (rest : List String) :
    ∃ r, commaJoinChars (t :: rest) = t.data ++ r := by
  cases rest with
  | nil => exact ⟨[], by simp [commaJoinChars]⟩
  | cons t₂ ts => exact ⟨',' :: commaJoinChars (t₂ :: ts), rfl⟩

/-- C5, amended: the article-crawl commit writes the JSON array string
`json.dumps(tags)` while the reparse overwrite writes the comma-joined
string `",".flatten(tags)`; the analytical-store reader `_parse_keywords`
recovers the tag list from either format (JSON parse first, comma-split
fallback), while the rule-filter reader `_get_field_value` space-joins a
JSON array and falls back to the raw comma-joined string. -/
theorem c5_tags_amended (old : Option String) (tags : List String)
    (hne : tags ≠ []) (hclean : cleanTags tags) :
    crawlTagsValue tags = some (jsonDumpsList tags) ∧
    reparseTagsValue old tags = some (commaJoin tags) ∧
    parseJsonArray (jsonDumpsList tags) = some tags ∧
    parseJsonArray (commaJoin tags) = none ∧
    parse_keywords (crawlTagsValue tags) = tags ∧
    parse_keywords (reparseTagsValue old tags) = tags ∧
    (∀ a : NewsArticleRow, a.tags = crawlTagsValue tags →
      get_field_value a "tags" = String.intercalate " " tags) ∧
    (∀ a : NewsArticleRow, a.tags = reparseTagsValue old tags →
      get_field_value a "tags" = commaJoin tags) := by
  have hq : ∀ t ∈ tags, ∀ c ∈ t.data, ¬ c = '"' :=
    fun t ht c hc => (goodTagChar_spec ((hclean t ht).2 c hc)).1
  have hjson := parseJsonArray_jsonDumpsList tags hq
  have hcrawl : crawlTagsValue tags = some (jsonDumpsList tags) := by
    rw [crawlTagsValue, if_neg hne]
  have hrep : reparseTagsValue old tags = some (commaJoin tags) := by
    rw [reparseTagsValue, if_neg hne]
  obtain ⟨t, rest, rfl⟩ := List.exists_cons_of_ne_nil hne
  obtain ⟨c, l', hdata⟩ : ∃ c l', t.data = c :: l' := by
    cases ht : t.data with
    | nil =>
      exact absurd (show t = "" by rw [← string_mk_data t, ht])
        (hclean t (List.mem_cons_self _ _)).1
    | cons c l' => exact ⟨c, l', rfl⟩
  have hcgood : goodTagChar c = true :=
    (hclean t (List.mem_cons_self _ _)).2 c (by rw [hdata]; exact List.mem_cons_self _ _)
  obtain ⟨r, hjoin⟩ := commaJoinChars_cons t rest
  have hjoindata : (commaJoin (t :: rest)).data = c :: (l' ++ r) := by
    show commaJoinChars (t :: rest) = c :: (l' ++ r)
    rw [hjoin, hdata]; rfl
  have hnone : parseJsonArray (commaJoin (t :: rest)) = none :=
    parseJsonArray_none_of_head _ _ _ hjoindata
      (goodTagChar_spec hcgood).2.2.2 (goodTagChar_spec hcgood).2.2.1
  have hdumpne : ¬ jsonDumpsList (t :: rest) = "" := by
    intro h
    have h2 : '[' :: jsonItemsChars (t :: rest) = [] := congrArg String.data h
    simp at h2
  have hjoinne : ¬ commaJoin (t :: rest) = "" := by
    intro h
    have h2 := congrArg String.data h
    rw [hjoindata] at h2
    simp at h2
  have hpk_json : parse_keywords (some (jsonDumpsList (t :: rest))) = t :: rest := by
    simp only [parse_keywords]
    rw [if_neg hdumpne, hjson]
    exact clean_map_strip _ hclean
  have hpk_comma : parse_keywords (some (commaJoin (t :: rest))) = t :: rest := by
    simp only [parse_keywords]
    rw [if_neg hjoinne, hnone]
    have hsplit := splitOnComma_commaJoin (t :: rest) (List.cons_ne_nil _ _)
      (fun x hx d hd => (goodTagChar_spec ((hclean x hx).2 d hd)).2.1)
    show ((((splitOnComma (commaJoin (t :: rest)).data).map stripChars).filter
      (fun l => l ≠ [])).map (fun l => (⟨l⟩ : String))) = t :: rest
    have hstrip : ((t :: rest).map String.data).map stripChars =
        (t :: rest).map String.data := by
      rw [List.map_map]
      refine List.map_congr_left ?_
      intro x hx
      show stripChars x.data = x.data
      exact stripChars_eq_self x.data
        (fun d hd => (goodTagChar_spec ((hclean x hx).2 d hd)).2.2.2)
    rw [show (commaJoin (t :: rest)).data = commaJoinChars (t :: rest) from rfl,
      hsplit, hstrip]
    have hfilter : ((t :: rest).map String.data).filter (fun l => l ≠ []) =
        (t :: rest).map String.data := by
      refine List.filter_eq_self.mpr ?_
      intro ld hld
      rcases List.mem_map.mp hld with ⟨x, hx, rfl⟩
      refine decide_eq_true ?_
      intro hnil
      exact (hclean x hx).1 (by rw [← string_mk_data x, hnil])
    rw [hfilter, List.map_map]
    refine (List.map_congr_left ?_).trans (List.map_id _)
    intro x _
    exact string_mk_data x
  refine ⟨hcrawl, hrep, hjson, hnone, ?_, ?_, ?_, ?_⟩
  · rw [hcrawl]; exact hpk_json
  · rw [hrep]; exact hpk_comma
  · intro a ha
    rw [hcrawl] at ha
    rw [get_field_value, if_neg (by decide), if_pos rfl, ha]
    simp [hjson, hdumpne]
  · intro a ha
    rw [hrep] at ha
    rw [get_field_value, if_neg (by decide), if_pos rfl, ha]
    simp [hnone, hjoinne]

/-- Concrete run of `c5_tags_amended` at tags `["a", "b"]`: the JSON write
and the comma write both read back as `["a", "b"]` through
`_parse_keywords`. -/
theorem c5_tags_amended_witness :
    parse_keywords (crawlTagsValue ["a", "b"]) = ["a", "b"] ∧
    parse_keywords (reparseTagsValue none ["a", "b"]) = ["a", "b"] := by
  refine ⟨(c5_tags_amended none ["a", "b"] (by decide) ?_).2.2.2.2.1,
    (c5_tags_amended none ["a", "b"] (by decide) ?_).2.2.2.2.2.1⟩ <;>
    · intro t ht
      fin_cases ht <;> exact ⟨by decide, by decide⟩

/-! ## C3 — the archive engine's transaction structure

From `DataManagementService.archive_source` in
`data_management_service.py`.  Filesystem writes (the gzipped batch file
and the manifest update) are recorded as trace events; `session.commit()`
is recorded as a `commitDb` event carrying the state snapshot.  The month
directory, the scan of existing batch numbers and the compressed file
size (`batch_path.stat().st_size`) are supplied through a configuration
record; timestamps are abstract day numbers, so the `target_date` filter
selects `crawled_at = d` and `before_date` selects `crawled_at < d`. -/

/-- `ArchiveStatus` from `app/models.py`. -/
inductive ArchiveStatus
  | active
  | archived
  | deleted
deriving DecidableEq, Repr

/-- A `news_articles` row, restricted to what archiving touches. -/
structure ArchiveArticle where
  id : Nat
  source : String
  raw_html : Option String
  crawled_at : Nat
deriving DecidableEq, Repr

/-- A `raw_html_archives` row. -/
structure RawHtmlArchiveRow where
  article_id : Nat
  source : String
  archive_path : String
  status : ArchiveStatus
  original_size : Nat
  compressed_size : Nat
  archived_at : Nat
deriving DecidableEq, Repr

/-- The archive-relevant database state. -/
structure ArchiveDb where
  articles : List ArchiveArticle
  archives : List RawHtmlArchiveRow
deriving DecidableEq, Repr

/-- Externally visible steps of `archive_source`. -/
inductive ArchiveEvent
  | writeBatchFile (path : String) (article_ids : List Nat)
  | writeManifest (dir : String) (filename : String) (article_ids : List Nat)
  | commitDb (db : ArchiveDb)
deriving DecidableEq, Repr

/-- Environment of one `archive_source` call: archive base path, current
month partition, batch size, the batch numbers already present in the
month directory, the clock, and the filesystem's compressed-size answer. -/
structure ArchiveCfg where
  base : String
  month : String
  batch_size : Nat
  existingBatchNums : List Nat
  now : Nat
  fileSize : String → Nat

/-- Article ids having an ARCHIVED `raw_html_archives` row (the
already-archived exclusion subquery). -/
def archivedIds (db : ArchiveDb) : List Nat :=
  (db.archives.filter (fun r => r.status = .archived)).map
    RawHtmlArchiveRow.article_id

/-- The selection query of `archive_source`: same source, non-empty
`raw_html`, matching the date predicate, not yet archived. -/
def selectArticles (source : String) (target? before? : Option Nat)
    (db : ArchiveDb) : List ArchiveArticle :=
  db.articles.filter (fun a =>
    a.source = source && truthy a.raw_html &&
    (match target? with
     | some d => a.crawled_at = d
     | none =>
       match before? with
       | some d => decide (a.crawled_at < d)
       | none => true) &&
    !(archivedIds db).contains a.id)

/-- `_get_next_batch_number`: one more than the largest existing batch
number, or 1 for an empty directory. -/
def next_batch_number (existing : List Nat) : Nat :=
  if existing = [] then 1 else existing.foldl max 0 + 1

/-- Zero-padded width-3 batch number (`f"batch_{n:03d}"`). -/
def pad3 (n : Nat) : String :=
  if n < 10 then "00" ++ natStr n
  else if n < 100 then "0" ++ natStr n
  else natStr n

/-- `articles[i : i + batch_size]` slicing, fuel-structured so that it
evaluates by reduction. -/
def chunksGo {α : Type} (bs : Nat) : Nat → List α → List (List α)
  | _, [] => []
  | 0, _ :: _ => []
  | fuel + 1, a :: l =>
    ((a :: l).take bs) :: chunksGo bs fuel ((a :: l).drop bs)

/-- The batches of the archive loop (`range(0, len(articles),
batch_size)`). -/
def chunksOf {α : Type} (bs : Nat) (l : List α) : List (List α) :=
  chunksGo bs l.length l

/-- One iteration of the archive loop: write the gzipped batch file, add
one ARCHIVED record per article, null the articles' `raw_html` in the
session, and append the manifest entry.  No commit happens here. -/
def processBatch (cfg : ArchiveCfg) (source dir : String) (batchNum : Nat)
    (batch : List ArchiveArticle) (db : ArchiveDb) :
    ArchiveDb × List ArchiveEvent :=
  let filename := "batch_" ++ pad3 batchNum ++ ".json.gz"
  let path := dir ++ "/" ++ filename
  let db' : ArchiveDb :=
    { articles := db.articles.map (fun a =>
        if batch.any (fun b => b.id = a.id) then { a with raw_html := none }
        else a)
      archives := db.archives ++ batch.map (fun a =>
        { article_id := a.id
          source := source
          archive_path := path
          status := .archived
          original_size := (a.raw_html.getD "").length
          compressed_size := cfg.fileSize path / batch.length
          archived_at := cfg.now }) }
  (db', [.writeBatchFile path (batch.map ArchiveArticle.id),
    .writeManifest dir filename (batch.map ArchiveArticle.id)])

/-- The batch loop of `archive_source`. -/
def archiveLoop (cfg : ArchiveCfg) (source dir : String) (nextB : Nat) :
    List (List ArchiveArticle) → Nat → ArchiveDb →
      ArchiveDb × List ArchiveEvent
  | [], _, db => (db, [])
  | b :: bs, k, db =>
    let p := processBatch cfg source dir (nextB + k) b db
    let rest := archiveLoop cfg source dir nextB bs (k + 1) p.1
    (rest.1, p.2 ++ rest.2)

/-- `DataManagementService.archive_source`: select the unarchived
articles, batch them, per batch write one file, add records, null
`raw_html` and append to the manifest — and then commit the session
once, after the loop. -/
def archive_source (cfg : ArchiveCfg) (source : String)
    (before? target? : Option Nat) (db : ArchiveDb) : List ArchiveEvent :=
  let sel := selectArticles source target? before? db
  if sel = [] then []
  else
    let dir := cfg.base ++ "/raw_html/" ++ source ++ "/" ++ cfg.month
    let nextB := next_batch_number cfg.existingBatchNums
    let p := archiveLoop cfg source dir nextB
      (chunksOf cfg.batch_size sel) 0 db
    p.2 ++ [.commitDb p.1]

/-- The committed snapshots of a trace. -/
def commitsIn (tr : List ArchiveEvent) : List ArchiveDb :=
  tr.filterMap (fun e =>
    match e with
    | .commitDb db => some db
    | _ => none)

/-- The batch files written by a trace. -/
def batchWritesIn (tr : List ArchiveEvent) : List (String × List Nat) :=
  tr.filterMap (fun e =>
    match e with
    | .writeBatchFile path ids => some (path, ids)
    | _ => none)

/-- What C3 asserts: one database commit per batch file. -/
def c3ClaimStatement : Prop :=
  ∀ (cfg : ArchiveCfg) (source : String) (before? target? : Option Nat)
    (db : ArchiveDb),
    (commitsIn (archive_source cfg source before? target? db)).length =
      (batchWritesIn (archive_source cfg source before? target? db)).length

/-- C3, counterexample: with batch size 1 and two unarchived articles,
`archive_source` writes two batch files but commits exactly once, after
the loop — there is no per-batch-file transaction. -/
theorem c3_per_batch_commit_counterexample :
    ¬ c3ClaimStatement ∧
    (commitsIn (archive_source ⟨"b", "2024-01", 1, [], 0, fun _ => 0⟩ "s"
      none none ⟨[⟨1, "s", some "h1", 0⟩, ⟨2, "s", some "h2", 0⟩], []⟩)).length
      = 1 ∧
    (batchWritesIn (archive_source ⟨"b", "2024-01", 1, [], 0, fun _ => 0⟩ "s"
      none none ⟨[⟨1, "s", some "h1", 0⟩, ⟨2, "s", some "h2", 0⟩], []⟩)).length
      = 2 := by
  refine ⟨fun h => ?_, by decide, by decide⟩
  have h2 := h ⟨"b", "2024-01", 1, [], 0, fun _ => 0⟩ "s" none none
    ⟨[⟨1, "s", some "h1", 0⟩, ⟨2, "s", some "h2", 0⟩], []⟩
  exact absurd h2 (by decide)

theorem chunksGo_join {α : Type} (bs fuel : Nat) (l : List α)
    (hbs : 1 ≤ bs) (hfuel : l.length ≤ fuel) :
    (chunksGo bs fuel l).flatten = l := by
  induction fuel generalizing l with
  | zero =>
    rw [Nat.le_zero, List.length_eq_zero] at hfuel
    subst hfuel
    rfl
  | succ fuel ih =>
    cases l with
    | nil => rfl
    | cons a l' =>
      rw [chunksGo, List.flatten_cons, ih ((a :: l').drop bs)
        (by
          have h1 : (a :: l').length ≤ fuel + 1 := hfuel
          rw [List.length_drop]
          simp only [List.length_cons] at h1 ⊢
          omega),
        List.take_append_drop]

theorem archiveLoop_spec (cfg : ArchiveCfg) (source dir : String)
    (nextB : Nat) (chunks : List (List ArchiveArticle)) (k : Nat)
    (db : ArchiveDb) :
    (∀ db', ArchiveEvent.commitDb db' ∈
      (archiveLoop cfg source dir nextB chunks k db).2 → False) ∧
    (∃ recs,
      (archiveLoop cfg source dir nextB chunks k db).1.archives =
        db.archives ++ recs ∧
      recs.map RawHtmlArchiveRow.article_id =
        chunks.flatten.map ArchiveArticle.id ∧
      ∀ rec ∈ recs, rec.status = .archived) ∧
    (archiveLoop cfg source dir nextB chunks k db).1.articles =
      db.articles.map (fun a =>
        if chunks.flatten.any (fun b => b.id = a.id) then
          { a with raw_html := none }
        else a) := by
  induction chunks generalizing k db with
  | nil =>
    refine ⟨fun db' h => by simp [archiveLoop] at h,
      ⟨[], by simp [archiveLoop], by simp, by simp⟩, ?_⟩
    show db.articles = db.articles.map _
    refine ((List.map_congr_left ?_).trans (List.map_id _)).symm
    intro a _
    simp [List.flatten]
  | cons b bs ih =>
    have ihr := ih (k + 1)
      (processBatch cfg source dir (nextB + k) b db).1
    refine ⟨?_, ?_, ?_⟩
    · intro db' hmem
      rw [show (archiveLoop cfg source dir nextB (b :: bs) k db).2 =
          (processBatch cfg source dir (nextB + k) b db).2 ++
          (archiveLoop cfg source dir nextB bs (k + 1)
            (processBatch cfg source dir (nextB + k) b db).1).2 from rfl]
        at hmem
      rcases List.mem_append.mp hmem with hb | hr
      · simp [processBatch] at hb
      · exact ihr.1 db' hr
    · obtain ⟨recs, hrec, hmapid, hstat⟩ := ihr.2.1
      refine ⟨b.map (fun a =>
        { article_id := a.id
          source := source
          archive_path := dir ++ "/" ++ ("batch_" ++ pad3 (nextB + k) ++ ".json.gz")
          status := .archived
          original_size := (a.raw_html.getD "").length
          compressed_size :=
            cfg.fileSize (dir ++ "/" ++ ("batch_" ++ pad3 (nextB + k) ++ ".json.gz")) / b.length
          archived_at := cfg.now }) ++ recs, ?_, ?_, ?_⟩
      · rw [show (archiveLoop cfg source dir nextB (b :: bs) k db).1 =
            (archiveLoop cfg source dir nextB bs (k + 1)
              (processBatch cfg source dir (nextB + k) b db).1).1 from rfl,
          hrec]
        rw [show (processBatch cfg source dir (nextB + k) b db).1.archives =
            db.archives ++ b.map _ from rfl, List.append_assoc]
      · rw [List.map_append, List.map_map, hmapid, List.flatten_cons,
          List.map_append]
        congr 1
      · intro rec hrec'
        rcases List.mem_append.mp hrec' with hb | hr
        · rcases List.mem_map.mp hb with ⟨a, _, rfl⟩
          rfl
        · exact hstat rec hr
    · rw [show (archiveLoop cfg source dir nextB (b :: bs) k db).1 =
          (archiveLoop cfg source dir nextB bs (k + 1)
            (processBatch cfg source dir (nextB + k) b db).1).1 from rfl,
        ihr.2.2]
      rw [show (processBatch cfg source dir (nextB + k) b db).1.articles =
          db.articles.map (fun a =>
            if b.any (fun x => x.id = a.id) then { a with raw_html := none }
            else a) from rfl,
        List.map_map]
      refine List.map_congr_left ?_
      intro a _
      simp only [Function.comp_apply, List.flatten_cons, List.any_append]
      have hid : ({ a with raw_html := none } : ArchiveArticle).id = a.id := rfl
      by_cases hb : b.any (fun x => x.id = a.id) = true
      · simp only [hb, Bool.true_or, if_true, hid]
        by_cases h2 : bs.flatten.any (fun x => x.id = a.id) = true
        · simp [h2]
        · simp [Bool.eq_false_iff.mpr h2]
      · simp [Bool.eq_false_iff.mpr hb]

/-- C3, amended: `archive_source` performs all per-batch filesystem writes
during the loop but commits the database work of *all* batches in a single
transaction after the loop: the trace ends with exactly one commit, whose
snapshot holds one ARCHIVED record per selected article and has those
articles' `raw_html` nulled; no commit precedes it, so a failure partway
through a source leaves batch files on disk but no archive records
committed. -/
theorem c3_single_commit_amended (cfg : ArchiveCfg) (source : String)
    (before? target? : Option Nat) (db : ArchiveDb)
    (hbs : 1 ≤ cfg.batch_size)
    (hsel : selectArticles source target? before? db ≠ []) :
    ∃ body dbF,
      archive_source cfg source before? target? db =
        body ++ [ArchiveEvent.commitDb dbF] ∧
      (∀ db', ArchiveEvent.commitDb db' ∈ body → False) ∧
      (∃ recs, dbF.archives = db.archives ++ recs ∧
        recs.map RawHtmlArchiveRow.article_id =
          (selectArticles source target? before? db).map ArchiveArticle.id ∧
        ∀ rec ∈ recs, rec.status = .archived) ∧
      dbF.articles = db.articles.map (fun a =>
        if (selectArticles source target? before? db).any
            (fun b => b.id = a.id) then { a with raw_html := none }
        else a) := by
  have hjoin : (chunksOf cfg.batch_size
      (selectArticles source target? before? db)).flatten =
      selectArticles source target? before? db :=
    chunksGo_join _ _ _ hbs (le_refl _)
  have hspec := archiveLoop_spec cfg source
    (cfg.base ++ "/raw_html/" ++ source ++ "/" ++ cfg.month)
    (next_batch_number cfg.existingBatchNums)
    (chunksOf cfg.batch_size (selectArticles source target? before? db)) 0 db
  refine ⟨(archiveLoop cfg source
      (cfg.base ++ "/raw_html/" ++ source ++ "/" ++ cfg.month)
      (next_batch_number cfg.existingBatchNums)
      (chunksOf cfg.batch_size (selectArticles source target? before? db)) 0 db).2,
    (archiveLoop cfg source
      (cfg.base ++ "/raw_html/" ++ source ++ "/" ++ cfg.month)
      (next_batch_number cfg.existingBatchNums)
      (chunksOf cfg.batch_size (selectArticles source target? before? db)) 0 db).1,
    ?_, hspec.1, ?_, ?_⟩
  · rw [archive_source, if_neg hsel]
  · obtain ⟨recs, h1, h2, h3⟩ := hspec.2.1
    exact ⟨recs, h1, by rw [h2, hjoin], h3⟩
  · rw [hspec.2.2]
    refine List.map_congr_left ?_
    intro a _
    rw [hjoin]

/-- Concrete run of `c3_single_commit_amended` at the two-article,
batch-size-1 input of the counterexample. -/
theorem c3_single_commit_amended_witness :
    ∃ body dbF,
      archive_source ⟨"b", "2024-01", 1, [], 0, fun _ => 0⟩ "s" none none
          ⟨[⟨1, "s", some "h1", 0⟩, ⟨2, "s", some "h2", 0⟩], []⟩ =
        body ++ [ArchiveEvent.commitDb dbF] ∧
      (∀ db', ArchiveEvent.commitDb db' ∈ body → False) ∧
      (∃ recs, dbF.archives = [] ++ recs ∧
        recs.map RawHtmlArchiveRow.article_id =
          (selectArticles "s" none none
            ⟨[⟨1, "s", some "h1", 0⟩, ⟨2, "s", some "h2", 0⟩], []⟩).map
              ArchiveArticle.id ∧
        ∀ rec ∈ recs, rec.status = .archived) ∧
      dbF.articles = [⟨1, "s", some "h1", 0⟩, ⟨2, "s", some "h2", 0⟩].map
        (fun a =>
          if (selectArticles "s" none none
              ⟨[⟨1, "s", some "h1", 0⟩, ⟨2, "s", some "h2", 0⟩], []⟩).any
              (fun b => b.id = a.id) then { a with raw_html := none }
          else a) :=
  c3_single_commit_amended ⟨"b", "2024-01", 1, [], 0, fun _ => 0⟩ "s"
    none none ⟨[⟨1, "s", some "h1", 0⟩, ⟨2, "s", some "h2", 0⟩], []⟩
    (by decide) (by decide)

/-! ## C1 / C2 — the LLM analysis coordinator

From `LLMAnalysisService` in `llm_analysis_service.py` and
`TimescaleStore.store_batch` in `analysis/timescale_store.py`.

The `ArticleAnalysisTracking` model, its `AnalysisStatus` enum and the
`batch_id` column of `PipelineRun` are imported from `app.models` but are
not declared in the `models.py` under verification; their shape is
modelled from the spec (§3 *AnalysisTracking*, *PipelineRun*).  Tracking
rows are kept in insertion order (`created_at` ascending), so
`.order_by(created_at.desc()).first()` is the *last* matching element.

External effects are oracles: the provider's `submit_batch` result and
`_poll_batch` outcome are parameters; the analytical store's per-article
transaction (`_store_single_article`) is an oracle `attempt`, Pydantic
validation an oracle `validJson`, and a `TimescaleStore` connection
failure of the whole call the parameter `storeRaises`.  Each
`session.commit()` is a `commitDb` trace event carrying the snapshot. -/

/-- Modelled from the spec: `AnalysisStatus` (declared in `app.models`,
absent from the `models.py` under verification): `PENDING` on submit,
`SUCCESS` on good LLM output, `FAILED` on LLM/data error, `STORE_FAILED`
on transient store error. -/
inductive AnalysisStatus
  | pending
  | success
  | failed
  | store_failed
deriving DecidableEq, Repr

/-- Modelled from the spec: an `ArticleAnalysisTracking` row (declared in
`app.models`, absent from the `models.py` under verification):
`(article_id, batch_id, status, result_json?, error_message?,
created_at)`; `created_at` is represented by list position. -/
structure TrackingRow where
  article_id : Nat
  batch_id : String
  status : AnalysisStatus
  result_json : Option String
  error_message : Option String
deriving DecidableEq, Repr

/-- The coordinator-relevant database state: tracking rows in insertion
order plus the run's persisted `batch_id` (modelled from the spec's
`PipelineRun.batch_id?`, absent from the `models.py` under
verification). -/
structure CoordDb where
  rows : List TrackingRow
  runBatchId : Option String
deriving DecidableEq, Repr

/-- `AnalysisResponse` from `analysis/base_provider.py`. -/
structure AnalysisResponse where
  custom_id : String
  success : Bool
  result_json : Option String := none
  error_message : Option String := none
deriving DecidableEq, Repr

/-- `StoreFailure` from `analysis/timescale_store.py`. -/
structure StoreFailure where
  article_id : Nat
  error_message : String
  is_transient : Bool
deriving DecidableEq, Repr

/-- Outcome of the oracle for `_store_single_article`: normal return,
`OperationalError` (transient), or any other exception (data error). -/
inductive StoreOutcome
  | ok
  | operationalErr (msg : String)
  | dataErr (msg : String)
deriving DecidableEq, Repr

/-- The coordinator's environment: whether `timescale_url` is configured,
whether the whole store call raises, the per-article store oracle, the
JSON-validation oracle, and the ids present in the `news_articles`
store. -/
structure CoordCfg where
  timescaleConfigured : Bool
  storeRaises : Option String
  attempt : Nat → StoreOutcome
  validJson : String → Bool
  articleStore : List Nat

/-- Replace the element at one position. -/
def modifyAt {α : Type} (f : α → α) : Nat → List α → List α
  | _, [] => []
  | 0, a :: l => f a :: l
  | n + 1, a :: l => a :: modifyAt f n l

/-- The index of the last element satisfying `p` (the ORM query
`.filter(p).order_by(created_at.desc()).first()`). -/
def lastIdxWhere {α : Type} (p : α → Bool) : List α → Option Nat
  | [] => none
  | a :: l =>
    match lastIdxWhere p l with
    | some i => some (i + 1)
    | none => if p a then some 0 else none

/-- The positions of all elements satisfying `p` (a captured `.all()`
result, identified positionally). -/
def idxsWhere {α : Type} (p : α → Bool) (l : List α) : List Nat :=
  (List.range l.length).filter (fun i =>
    match l.get? i with
    | some a => p a
    | none => false)

/-- Python-dict insertion with `Nat` keys. -/
def dictInsertNat (k : Nat) (v : String) (m : List (Nat × String)) :
    List (Nat × String) :=
  if m.any (fun p => p.1 = k) then
    m.map (fun p => if p.1 = k then (k, v) else p)
  else m ++ [(k, v)]

/-- `get_analyzed_article_ids`: article ids with a SUCCESS tracking row. -/
def get_analyzed_article_ids (db : CoordDb) : List Nat :=
  (db.rows.filter (fun r => r.status = .success)).map TrackingRow.article_id

/-- The articles left after dropping already-analyzed ones
(`to_analyze`). -/
def toAnalyzeOf (articles : List Nat) (db : CoordDb) : List Nat :=
  articles.filter (fun aid => !(get_analyzed_article_ids db).contains aid)

/-- `_create_tracking_records`: append one PENDING row per article. -/
def create_tracking_records (ids : List Nat) (batch_id : String)
    (db : CoordDb) : CoordDb :=
  { db with rows := db.rows ++ ids.map (fun aid =>
      { article_id := aid
        batch_id := batch_id
        status := .pending
        result_json := none
        error_message := none }) }

/-- `_update_tracking_from_responses`: for each response, find the newest
PENDING row of the parsed article and stamp it SUCCESS or FAILED;
unparseable ids count as failures, missing rows are skipped.  Returns the
state with `(success_count, fail_count)`. -/
def updateStep (acc : CoordDb × Nat × Nat) (resp : AnalysisResponse) :
    CoordDb × Nat × Nat :=
  match parse_article_id resp.custom_id with
  | none => (acc.1, acc.2.1, acc.2.2 + 1)
  | some aid =>
    match lastIdxWhere (fun r =>
        r.article_id = aid && r.status = .pending) acc.1.rows with
    | none => acc
    | some i =>
      if resp.success then
        let rows' := modifyAt (fun r => { r with status := .success }) i
          acc.1.rows
        ({ acc.1 with rows := rows' }, acc.2.1 + 1, acc.2.2)
      else
        let rows' := modifyAt (fun r =>
          { r with status := .failed, error_message := resp.error_message })
          i acc.1.rows
        ({ acc.1 with rows := rows' }, acc.2.1, acc.2.2 + 1)

def update_tracking_from_responses (resps : List AnalysisResponse)
    (db : CoordDb) : CoordDb × Nat × Nat :=
  resps.foldl updateStep (db, 0, 0)

/-- The stamp `_mark_storage_failures` applies to the found SUCCESS row:
transient failures become STORE_FAILED with the saved `result_json`, data
failures become FAILED; both record the error message. -/
def applyFailure (m : List (Nat × String)) (fl : StoreFailure)
    (r : TrackingRow) : TrackingRow :=
  if fl.is_transient then
    { r with status := .store_failed,
             result_json := m.lookup fl.article_id,
             error_message := some fl.error_message }
  else
    { r with status := .failed, error_message := some fl.error_message }

/-- `_mark_storage_failures`: for each failure, restamp the newest SUCCESS
row of that article. -/
def markStep (response_json_map : List (Nat × String)) (d : CoordDb)
    (fl : StoreFailure) : CoordDb :=
  match lastIdxWhere (fun r =>
      r.article_id = fl.article_id && r.status = .success) d.rows with
  | none => d
  | some i =>
    { d with rows := modifyAt (applyFailure response_json_map fl) i d.rows }

def mark_storage_failures (failures : List StoreFailure)
    (response_json_map : List (Nat × String)) (db : CoordDb) : CoordDb :=
  failures.foldl (markStep response_json_map) db

/-- One step of building `response_json_map`. -/
def buildMapStep (m : List (Nat × String)) (r : AnalysisResponse) :
    List (Nat × String) :=
  match parse_article_id r.custom_id with
  | none => m
  | some aid =>
    if truthy r.result_json then dictInsertNat aid (r.result_json.getD "") m
    else m

/-- The `response_json_map` dict: parsed article id to its non-empty
`result_json`. -/
def build_response_json_map (resps : List AnalysisResponse) :
    List (Nat × String) :=
  resps.foldl buildMapStep []

/-- The failure `TimescaleStore.store_batch` produces for one response
(`none` when the article is stored or the custom id is unparseable). -/
def storeOutcomeOf (cfg : CoordCfg) (articles_map : List Nat)
    (resp : AnalysisResponse) : Option StoreFailure :=
  match parse_article_id resp.custom_id with
  | none => none
  | some aid =>
    if ¬ articles_map.contains aid then
      some ⟨aid, "article not found in articles_map", false⟩
    else if ¬ truthy resp.result_json then
      some ⟨aid, "no result_json", false⟩
    else if ¬ cfg.validJson (resp.result_json.getD "") then
      some ⟨aid, "JSON parse failed", false⟩
    else
      match cfg.attempt aid with
      | .ok => none
      | .operationalErr msg => some ⟨aid, "DB connection error: " ++ msg, true⟩
      | .dataErr msg => some ⟨aid, "DB data error: " ++ msg, false⟩

/-- `TimescaleStore.store_batch`: one store-side transaction per response;
returns the stored count and the classified failures. -/
def storeBatchStep (cfg : CoordCfg) (articles_map : List Nat)
    (acc : Nat × List StoreFailure) (resp : AnalysisResponse) :
    Nat × List StoreFailure :=
  match storeOutcomeOf cfg articles_map resp with
  | none =>
    match parse_article_id resp.custom_id with
    | none => acc
    | some _ => (acc.1 + 1, acc.2)
  | some fl => (acc.1, acc.2 ++ [fl])

def store_batch (cfg : CoordCfg) (articles_map : List Nat)
    (resps : List AnalysisResponse) : Nat × List StoreFailure :=
  resps.foldl (storeBatchStep cfg articles_map) (0, [])

/-- `LLMAnalysisService.store_results`: skip when there is nothing to do
or storage is unconfigured; otherwise run `store_batch`, stamping
failures, or — if the whole call raises — stamp every mapped article as a
transient STORE_FAILED.  Returns the state and the commit snapshots made
inside. -/
def store_results (cfg : CoordCfg) (resps : List AnalysisResponse)
    (articles_map : Option (List Nat)) (db : CoordDb) :
    CoordDb × List CoordDb :=
  if resps = [] then (db, [])
  else if ¬ cfg.timescaleConfigured then (db, [])
  else
    match articles_map with
    | none => (db, [])
    | some amap =>
      let rjmap := build_response_json_map resps
      match cfg.storeRaises with
      | none =>
        let sb := store_batch cfg amap resps
        if sb.2 = [] then (db, [])
        else
          let db' := mark_storage_failures sb.2 rjmap db
          (db', [db'])
      | some e =>
        let all_transient := rjmap.map (fun p =>
          (⟨p.1, "TimescaleDB connection error: " ++ e, true⟩ : StoreFailure))
        let db' := mark_storage_failures all_transient rjmap db
        (db', [db'])

/-- Externally visible steps of the coordinator. -/
inductive AnalysisEvent
  | submitBatch (batch_id : String)
  | pollBatch (batch_id : String)
  | commitDb (db : CoordDb)
deriving DecidableEq, Repr

/-- The tail of `analyze_articles` after `_poll_batch`: update tracking
(commit), then store the successful results. -/
def analyzeAfterPoll (cfg : CoordCfg)
    (pollOutcome : Option (List AnalysisResponse)) (to_analyze : List Nat)
    (db : CoordDb) : List AnalysisEvent :=
  match pollOutcome with
  | none => []
  | some resps =>
    let u := update_tracking_from_responses resps db
    let sr := store_results cfg (resps.filter (fun r => r.success))
      (some to_analyze) u.1
    .commitDb u.1 :: sr.2.map .commitDb

/-- `LLMAnalysisService.analyze_articles`: skip analyzed articles; resume
polling a persisted `batch_id`, or submit a new batch, persist its id on
the run (committed), create PENDING tracking rows (committed), poll, then
update tracking and store results. -/
def analyze_articles (cfg : CoordCfg) (submitId : String)
    (pollOutcome : Option (List AnalysisResponse)) (articles : List Nat)
    (db0 : CoordDb) : List AnalysisEvent :=
  let to_analyze := toAnalyzeOf articles db0
  if to_analyze = [] then []
  else
    match db0.runBatchId with
    | some b => .pollBatch b :: analyzeAfterPoll cfg pollOutcome to_analyze db0
    | none =>
      let db1 := { db0 with runBatchId := some submitId }
      let db2 := create_tracking_records to_analyze submitId db1
      .submitBatch submitId :: .commitDb db1 :: .commitDb db2 ::
        .pollBatch submitId :: analyzeAfterPoll cfg pollOutcome to_analyze db2

/-- `LLMAnalysisService.retry_failed`: load the FAILED articles still in
the store, delete the FAILED rows (committed), submit a new batch, create
PENDING rows (committed), poll, update tracking and store. -/
def retry_failed (cfg : CoordCfg) (submitId : String)
    (pollOutcome : Option (List AnalysisResponse)) (db0 : CoordDb) :
    List AnalysisEvent :=
  let failedIds := (db0.rows.filter (fun r => r.status = .failed)).map
    TrackingRow.article_id
  if failedIds = [] then []
  else
    let articles := cfg.articleStore.filter (fun aid => failedIds.contains aid)
    if articles = [] then []
    else
      let db1 := { db0 with
        rows := db0.rows.filter (fun r => ¬ r.status = .failed) }
      let db2 := create_tracking_records articles submitId db1
      .commitDb db1 :: .submitBatch submitId :: .commitDb db2 ::
        .pollBatch submitId ::
        (match pollOutcome with
         | none => []
         | some resps =>
           let u := update_tracking_from_responses resps db2
           let sr := store_results cfg (resps.filter (fun r => r.success))
             (some articles) u.1
           .commitDb u.1 :: sr.2.map .commitDb)

/-- The `if not r.result_json: revert to FAILED` pass over the captured
STORE_FAILED records. -/
def revertNoJson (idxs : List Nat) (rows : List TrackingRow) :
    List TrackingRow :=
  idxs.foldl (fun rs i => modifyAt (fun r =>
    if truthy r.result_json then r
    else { r with
           status := .failed,
           error_message := some "No result_json saved for storage retry" }) i rs)
    rows

/-- The `reset to SUCCESS before store attempt` pass. -/
def resetToSuccess (idxs : List Nat) (rows : List TrackingRow) :
    List TrackingRow :=
  idxs.foldl (fun rs i => modifyAt (fun r =>
    if r.status = .store_failed && truthy r.result_json then
      { r with status := .success }
    else r) i rs) rows

/-- The `clear result_json for successfully stored articles` pass. -/
def clearSuccessJson (idxs : List Nat) (rows : List TrackingRow) :
    List TrackingRow :=
  idxs.foldl (fun rs i => modifyAt (fun r =>
    if r.status = .success then { r with result_json := none } else r) i rs)
    rows

/-- `LLMAnalysisService.retry_store_failed`: capture the STORE_FAILED
rows; revert those without a saved `result_json` to FAILED and rebuild
responses for the rest; reset them to SUCCESS and commit; then attempt
storage — on a raise stamp every mapped article back to STORE_FAILED
(committed), otherwise stamp the store failures (committed) and clear
`result_json` on the rows still SUCCESS (committed). -/
def retry_store_failed (cfg : CoordCfg) (db0 : CoordDb) :
    List AnalysisEvent :=
  let idxs := idxsWhere (fun r => r.status = .store_failed) db0.rows
  let records := db0.rows.filter (fun r => r.status = .store_failed)
  if records = [] then []
  else if ¬ cfg.timescaleConfigured then []
  else
    let articleIds := records.map TrackingRow.article_id
    let amap := cfg.articleStore.filter (fun aid => articleIds.contains aid)
    let responses := records.filterMap (fun r =>
      if truthy r.result_json then
        some ⟨mkCustomId r.article_id, true, r.result_json, none⟩
      else none)
    let dbA : CoordDb := { db0 with rows := revertNoJson idxs db0.rows }
    if responses = [] then [.commitDb dbA]
    else
      let rjmap := build_response_json_map responses
      let dbB : CoordDb := { dbA with rows := resetToSuccess idxs dbA.rows }
      .commitDb dbB ::
        (match cfg.storeRaises with
         | some e =>
           let all_transient := rjmap.map (fun p =>
             (⟨p.1, "TimescaleDB connection error: " ++ e, true⟩ : StoreFailure))
           [.commitDb (mark_storage_failures all_transient rjmap dbB)]
         | none =>
           let sb := store_batch cfg amap responses
           let dbC := if sb.2 = [] then dbB
             else mark_storage_failures sb.2 rjmap dbB
           let dbD : CoordDb := { dbC with
             rows := clearSuccessJson idxs dbC.rows }
           (if sb.2 = [] then [] else [.commitDb dbC]) ++ [.commitDb dbD])

theorem analyzeAfterPoll_events (cfg : CoordCfg)
    (pollOutcome : Option (List AnalysisResponse)) (to_analyze : List Nat)
    (db : CoordDb) (e : AnalysisEvent)
    (he : e ∈ analyzeAfterPoll cfg pollOutcome to_analyze db) :
    ∃ d, e = .commitDb d := by
  match pollOutcome with
  | none => simp [analyzeAfterPoll] at he
  | some resps =>
    simp only [analyzeAfterPoll, List.mem_cons] at he
    rcases he with rfl | he
    · exact ⟨_, rfl⟩
    · rcases List.mem_map.mp he with ⟨d, _, rfl⟩
      exact ⟨d, rfl⟩

/-- C1: when `run.batch_id` is absent (and there is work), the coordinator
submits one batch and the first commit persists `batch_id` on the run with
the tracking rows untouched; the commit inserting the PENDING tracking
rows comes strictly after, and only then is the new batch polled.  When
`run.batch_id` is present, no batch is submitted and exactly that batch is
polled — a resumed run polls the originally submitted batch. -/
theorem c1_submit_persist_resume (cfg : CoordCfg) (submitId : String)
    (pollOutcome : Option (List AnalysisResponse)) (articles : List Nat)
    (db0 : CoordDb) :
    (db0.runBatchId = none → toAnalyzeOf articles db0 ≠ [] →
      (∃ rest,
        analyze_articles cfg submitId pollOutcome articles db0 =
          AnalysisEvent.submitBatch submitId ::
          AnalysisEvent.commitDb { db0 with runBatchId := some submitId } ::
          AnalysisEvent.commitDb (create_tracking_records
            (toAnalyzeOf articles db0) submitId
            { db0 with runBatchId := some submitId }) ::
          AnalysisEvent.pollBatch submitId :: rest) ∧
      ({ db0 with runBatchId := some submitId } : CoordDb).rows = db0.rows) ∧
    (∀ b, db0.runBatchId = some b → toAnalyzeOf articles db0 ≠ [] →
      (∀ s, AnalysisEvent.submitBatch s ∉
        analyze_articles cfg submitId pollOutcome articles db0) ∧
      ∃ rest,
        analyze_articles cfg submitId pollOutcome articles db0 =
          AnalysisEvent.pollBatch b :: rest ∧
        ∀ b', AnalysisEvent.pollBatch b' ∉ rest) := by
  constructor
  · intro h1 h2
    refine ⟨⟨analyzeAfterPoll cfg pollOutcome (toAnalyzeOf articles db0)
      (create_tracking_records (toAnalyzeOf articles db0) submitId
        { db0 with runBatchId := some submitId }), ?_⟩, rfl⟩
    simp only [analyze_articles]
    rw [if_neg h2, h1]
  · intro b hb h2
    have htr : analyze_articles cfg submitId pollOutcome articles db0 =
        AnalysisEvent.pollBatch b ::
        analyzeAfterPoll cfg pollOutcome (toAnalyzeOf articles db0) db0 := by
      simp only [analyze_articles]
      rw [if_neg h2, hb]
    refine ⟨?_, analyzeAfterPoll cfg pollOutcome (toAnalyzeOf articles db0) db0,
      htr, ?_⟩
    · intro s hs
      rw [htr, List.mem_cons] at hs
      rcases hs with heq | hs
      · exact AnalysisEvent.noConfusion heq
      · rcases analyzeAfterPoll_events cfg pollOutcome _ db0 _ hs with ⟨d, heq⟩
        exact AnalysisEvent.noConfusion heq
    · intro b' hb'
      rcases analyzeAfterPoll_events cfg pollOutcome _ db0 _ hb' with ⟨d, heq⟩
      exact AnalysisEvent.noConfusion heq

/-- Concrete runs of `c1_submit_persist_resume`: a fresh run over article 1
submits and persists `"batch-1"` before creating its tracking row; a run
resumed with `batch_id = "B"` submits nothing and polls `"B"`. -/
theorem c1_submit_persist_resume_witness :
    (∃ rest,
      analyze_articles ⟨true, none, fun _ => .ok, fun _ => true, [1]⟩
          "batch-1" none [1] ⟨[], none⟩ =
        AnalysisEvent.submitBatch "batch-1" ::
        AnalysisEvent.commitDb { rows := [], runBatchId := some "batch-1" } ::
        AnalysisEvent.commitDb (create_tracking_records
          (toAnalyzeOf [1] ⟨[], none⟩) "batch-1"
          { rows := [], runBatchId := some "batch-1" }) ::
        AnalysisEvent.pollBatch "batch-1" :: rest) ∧
    (∀ s, AnalysisEvent.submitBatch s ∉
      analyze_articles ⟨true, none, fun _ => .ok, fun _ => true, [1]⟩
        "batch-1" none [1] ⟨[], some "B"⟩) ∧
    (∃ rest,
      analyze_articles ⟨true, none, fun _ => .ok, fun _ => true, [1]⟩
          "batch-1" none [1] ⟨[], some "B"⟩ =
        AnalysisEvent.pollBatch "B" :: rest ∧
      ∀ b', AnalysisEvent.pollBatch b' ∉ rest) := by
  refine ⟨((c1_submit_persist_resume ⟨true, none, fun _ => .ok, fun _ => true, [1]⟩
      "batch-1" none [1] ⟨[], none⟩).1 rfl (by decide)).1, ?_, ?_⟩
  · exact ((c1_submit_persist_resume ⟨true, none, fun _ => .ok, fun _ => true, [1]⟩
      "batch-1" none [1] ⟨[], some "B"⟩).2 "B" rfl (by decide)).1
  · exact ((c1_submit_persist_resume ⟨true, none, fun _ => .ok, fun _ => true, [1]⟩
      "batch-1" none [1] ⟨[], some "B"⟩).2 "B" rfl (by decide)).2

/-- The committed snapshots of a coordinator trace. -/
def coordCommits (tr : List AnalysisEvent) : List CoordDb :=
  tr.filterMap (fun e =>
    match e with
    | .commitDb db => some db
    | _ => none)

/-- C2's invariant on one tracking row: SUCCESS rows have no
`result_json`, STORE_FAILED rows have one. -/
def ClaimRowInv (r : TrackingRow) : Prop :=
  (r.status = .success → truthy r.result_json = false) ∧
  (r.status = .store_failed → truthy r.result_json = true)

instance (r : TrackingRow) : Decidable (ClaimRowInv r) := by
  unfold ClaimRowInv; infer_instance

/-- C2's invariant on a state. -/
def ClaimInv (db : CoordDb) : Prop :=
  ∀ r ∈ db.rows, ClaimRowInv r

instance (db : CoordDb) : Decidable (ClaimInv db) :=
  List.decidableBAll _ _

/-- What C2 asserts: starting from any state satisfying the invariant,
every state committed by a coordinator operation (`analyze_articles`,
`retry_failed`, `retry_store_failed` — the commits of
`_mark_storage_failures` occur inside these traces) satisfies it again. -/
def c2ClaimStatement : Prop :=
  ∀ (cfg : CoordCfg) (db : CoordDb), ClaimInv db →
    (∀ submitId pollOutcome articles db',
      db' ∈ coordCommits (analyze_articles cfg submitId pollOutcome articles db) →
      ClaimInv db') ∧
    (∀ submitId pollOutcome db',
      db' ∈ coordCommits (retry_failed cfg submitId pollOutcome db) →
      ClaimInv db') ∧
    (∀ db', db' ∈ coordCommits (retry_store_failed cfg db) → ClaimInv db')

/-- C2, counterexample: `retry_store_failed` commits an intermediate state
(line 407: the reset loop's commit) in which a row reset from STORE_FAILED
to SUCCESS still carries its `result_json` — from the invariant-satisfying
state with one STORE_FAILED row `(article 1, result_json "x")`, the first
committed snapshot has a SUCCESS row with `result_json = "x"`. -/
theorem c2_invariant_counterexample :
    ¬ c2ClaimStatement ∧
    ClaimInv ⟨[⟨1, "b", .store_failed, some "x", none⟩], none⟩ ∧
    (⟨[⟨1, "b", .success, some "x", none⟩], none⟩ : CoordDb) ∈
      coordCommits (retry_store_failed
        ⟨true, none, fun _ => .ok, fun _ => true, [1]⟩
        ⟨[⟨1, "b", .store_failed, some "x", none⟩], none⟩) ∧
    ¬ ClaimInv ⟨[⟨1, "b", .success, some "x", none⟩], none⟩ := by
  refine ⟨fun h => ?_, by decide, by decide, by decide⟩
  have h3 := (h ⟨true, none, fun _ => .ok, fun _ => true, [1]⟩
    ⟨[⟨1, "b", .store_failed, some "x", none⟩], none⟩ (by decide)).2.2
    ⟨[⟨1, "b", .success, some "x", none⟩], none⟩ (by decide)
  exact absurd h3 (by decide)

/-! ### C2 — auxiliary list lemmas -/

theorem get?_modifyAt {α : Type} (f : α → α) (i j : Nat) (l : List α) :
    (modifyAt f i l).get? j =
      if j = i then (l.get? j).map f else l.get? j := by
  induction l generalizing i j with
  | nil => simp [modifyAt]
  | cons a l ih =>
    cases i with
    | zero =>
      cases j with
      | zero => simp [modifyAt]
      | succ m => simp [modifyAt]
    | succ n =>
      cases j with
      | zero => simp [modifyAt]
      | succ m =>
        show (modifyAt f n l).get? m =
          if m + 1 = n + 1 then (l.get? m).map f else l.get? m
        rw [ih n m]
        by_cases h : m = n
        · rw [if_pos h, if_pos (by omega)]
        · rw [if_neg h, if_neg (by omega)]

theorem mem_modifyAt {α : Type} (f : α → α) (i : Nat) (l : List α) (x : α)
    (hx : x ∈ modifyAt f i l) :
    x ∈ l ∨ ∃ y, l.get? i = some y ∧ x = f y := by
  induction l generalizing i with
  | nil => simp [modifyAt] at hx
  | cons a l ih =>
    cases i with
    | zero =>
      rcases List.mem_cons.mp hx with rfl | hx'
      · exact Or.inr ⟨a, rfl, rfl⟩
      · exact Or.inl (List.mem_cons_of_mem _ hx')
    | succ n =>
      rcases List.mem_cons.mp hx with rfl | hx'
      · exact Or.inl (List.mem_cons_self _ _)
      · rcases ih n hx' with h | ⟨y, hy, rfl⟩
        · exact Or.inl (List.mem_cons_of_mem _ h)
        · exact Or.inr ⟨y, by simpa using hy, rfl⟩

theorem lastIdxWhere_eq_none {α : Type} (p : α → Bool) (l : List α)
    (h : lastIdxWhere p l = none) : ∀ x ∈ l, p x = false := by
  induction l with
  | nil => intro x hx; simp at hx
  | cons a l ih =>
    intro x hx
    rw [lastIdxWhere] at h
    cases hl : lastIdxWhere p l with
    | some i => rw [hl] at h; exact absurd h (by simp)
    | none =>
      rw [hl] at h
      have hpa : p a = false := by
        by_cases hp : p a = true
        · rw [if_pos hp] at h; exact absurd h (by simp)
        · exact Bool.eq_false_iff.mpr hp
      rcases List.mem_cons.mp hx with rfl | hx'
      · exact hpa
      · exact ih hl x hx'

theorem lastIdxWhere_some {α : Type} (p : α → Bool) (l : List α) (i : Nat)
    (h : lastIdxWhere p l = some i) :
    ∃ x, l.get? i = some x ∧ p x = true := by
  induction l generalizing i with
  | nil => simp [lastIdxWhere] at h
  | cons a l ih =>
    rw [lastIdxWhere] at h
    cases hl : lastIdxWhere p l with
    | some j =>
      rw [hl] at h
      have hij : i = j + 1 := by
        have := h
        simp at this
        omega
      subst hij
      rcases ih j hl with ⟨x, hx, hpx⟩
      exact ⟨x, by simpa using hx, hpx⟩
    | none =>
      rw [hl] at h
      by_cases hp : p a = true
      · rw [if_pos hp] at h
        have : i = 0 := by simpa using h.symm
        subst this
        exact ⟨a, rfl, hp⟩
      · rw [if_neg hp] at h
        exact absurd h (by simp)

theorem idxsWhere_nodup {α : Type} (p : α → Bool) (l : List α) :
    (idxsWhere p l).Nodup :=
  (List.nodup_range _).filter _

theorem mem_idxsWhere {α : Type} (p : α → Bool) (l : List α) (i : Nat) :
    i ∈ idxsWhere p l ↔ ∃ x, l.get? i = some x ∧ p x = true := by
  rw [idxsWhere, List.mem_filter, List.mem_range]
  cases hg : l.get? i with
  | none =>
    have : ¬ i < l.length := by
      intro hlt
      rw [List.get?_eq_get hlt] at hg
      exact Option.noConfusion hg
    simp [this, hg]
  | some x =>
    have hlt : i < l.length := by
      by_contra hge
      rw [List.get?_eq_none.mpr (by omega)] at hg
      exact Option.noConfusion hg
    simp [hlt, hg]

theorem get?_foldl_modifyAt {α : Type} (g : α → α) (idxs : List Nat)
    (hnd : idxs.Nodup) (l : List α) (j : Nat) :
    (idxs.foldl (fun rs i => modifyAt g i rs) l).get? j =
      if j ∈ idxs then (l.get? j).map g else l.get? j := by
  induction idxs generalizing l with
  | nil => simp
  | cons i rest ih =>
    rw [List.foldl_cons, ih (List.Nodup.of_cons hnd)]
    by_cases hji : j = i
    · subst hji
      have hjr : j ∉ rest := (List.nodup_cons.mp hnd).1
      rw [if_neg hjr, get?_modifyAt, if_pos rfl,
        if_pos (List.mem_cons_self _ _)]
    · rw [get?_modifyAt, if_neg hji]
      by_cases hjr : j ∈ rest
      · rw [if_pos hjr, if_pos (List.mem_cons_of_mem _ hjr)]
      · rw [if_neg hjr, if_neg (by
          intro hmem
          rcases List.mem_cons.mp hmem with h | h
          · exact hji h
          · exact hjr h)]

theorem foldl_modifyAt_id {α : Type} (g : α → α) (idxs : List Nat)
    (hnd : idxs.Nodup) (l : List α)
    (hfix : ∀ i ∈ idxs, ∀ x, l.get? i = some x → g x = x) :
    idxs.foldl (fun rs i => modifyAt g i rs) l = l := by
  apply List.ext
  intro j
  rw [get?_foldl_modifyAt g idxs hnd l j]
  by_cases hj : j ∈ idxs
  · rw [if_pos hj]
    cases hg : l.get? j with
    | none => rfl
    | some x => simp [hfix j hj x hg]
  · rw [if_neg hj]

theorem filterMap_eq_map_of_some {α β : Type} (f : α → Option β)
    (g : α → β) (l : List α) (h : ∀ x ∈ l, f x = some (g x)) :
    l.filterMap f = l.map g := by
  induction l with
  | nil => rfl
  | cons a l ih =>
    rw [List.filterMap_cons, h a (List.mem_cons_self _ _), List.map_cons,
      ih (fun x hx => h x (List.mem_cons_of_mem _ hx))]

theorem lookup_some_of_key_mem {ν : Type} (m : List (Nat × ν)) (k : Nat)
    (h : ∃ p ∈ m, p.1 = k) : ∃ v, m.lookup k = some v := by
  induction m with
  | nil => simp at h
  | cons q m ih =>
    obtain ⟨qk, qv⟩ := q
    by_cases hk : qk = k
    · subst hk
      exact ⟨qv, by simp [List.lookup]⟩
    · rcases h with ⟨p, hp, hpk⟩
      rcases List.mem_cons.mp hp with rfl | hp'
      · exact absurd hpk hk
      · rcases ih ⟨p, hp', hpk⟩ with ⟨v, hv⟩
        refine ⟨v, ?_⟩
        have hne : (k == qk) = false := by
          refine beq_eq_false_iff_ne.mpr ?_
          intro hh
          exact hk hh.symm
        simp [List.lookup, hne, hv]

theorem lookup_mem {ν : Type} (m : List (Nat × ν)) (k : Nat) (v : ν)
    (h : m.lookup k = some v) : (k, v) ∈ m := by
  induction m with
  | nil => simp [List.lookup] at h
  | cons q m ih =>
    obtain ⟨qk, qv⟩ := q
    by_cases hk : k = qk
    · subst hk
      simp only [List.lookup, beq_self_eq_true] at h
      have hv : qv = v := by simpa using h
      subst hv
      exact List.mem_cons_self _ _
    · have hne : (k == qk) = false := by simp [hk]
      simp only [List.lookup, hne] at h
      exact List.mem_cons_of_mem _ (ih h)

/-! ### C2 — invariant preservation through the coordinator's steps -/

/-- The inductive strengthening of `ClaimRowInv`: PENDING rows carry no
`result_json` either (true of every row the coordinator ever creates). -/
def StrongRowInv (r : TrackingRow) : Prop :=
  ClaimRowInv r ∧ (r.status = .pending → truthy r.result_json = false)

instance (r : TrackingRow) : Decidable (StrongRowInv r) := by
  unfold StrongRowInv; infer_instance

/-- `ClaimInv` strengthened row-wise. -/
def StrongInv (db : CoordDb) : Prop :=
  ∀ r ∈ db.rows, StrongRowInv r

instance (db : CoordDb) : Decidable (StrongInv db) :=
  List.decidableBAll _ _

theorem StrongInv.claimInv {db : CoordDb} (h : StrongInv db) : ClaimInv db :=
  fun r hr => (h r hr).1

theorem create_tracking_strongInv (ids : List Nat) (b : String)
    (db : CoordDb) (h : StrongInv db) :
    StrongInv (create_tracking_records ids b db) := by
  intro r hr
  rcases List.mem_append.mp hr with h1 | h2
  · exact h r h1
  · rcases List.mem_map.mp h2 with ⟨aid, _, rfl⟩
    exact ⟨⟨fun hs => AnalysisStatus.noConfusion hs,
      fun hs => AnalysisStatus.noConfusion hs⟩, fun _ => rfl⟩

theorem updateStep_strongInv (acc : CoordDb × Nat × Nat)
    (resp : AnalysisResponse) (h : StrongInv acc.1) :
    StrongInv (updateStep acc resp).1 := by
  rw [updateStep]
  split
  · exact h
  next aid =>
    split
    · exact h
    next i hl =>
      obtain ⟨x, hx, hpx⟩ := lastIdxWhere_some _ _ _ hl
      have hxinv := h x (List.get?_mem hx)
      have hxpend : x.status = .pending := by
        simp only [Bool.and_eq_true, decide_eq_true_eq] at hpx
        exact hpx.2
      have hxjson : truthy x.result_json = false := hxinv.2 hxpend
      split
      next hs =>
        intro r hr
        rcases mem_modifyAt _ _ _ _ hr with hold | ⟨y, hy, rfl⟩
        · exact h r hold
        · have hyx : y = x := by rw [hx] at hy; exact (Option.some_inj.mp hy).symm
          subst hyx
          exact ⟨⟨fun _ => hxjson, fun hc => AnalysisStatus.noConfusion hc⟩,
            fun hc => AnalysisStatus.noConfusion hc⟩
      next hs =>
        intro r hr
        rcases mem_modifyAt _ _ _ _ hr with hold | ⟨y, hy, rfl⟩
        · exact h r hold
        · exact ⟨⟨fun hc => AnalysisStatus.noConfusion hc,
            fun hc => AnalysisStatus.noConfusion hc⟩,
            fun hc => AnalysisStatus.noConfusion hc⟩

theorem update_tracking_strongInv (resps : List AnalysisResponse)
    (db : CoordDb) (h : StrongInv db) :
    StrongInv (update_tracking_from_responses resps db).1 := by
  rw [update_tracking_from_responses]
  have main : ∀ (rs : List AnalysisResponse) (acc : CoordDb × Nat × Nat),
      StrongInv acc.1 → StrongInv (rs.foldl updateStep acc).1 := by
    intro rs
    induction rs with
    | nil => exact fun acc h => h
    | cons resp rest ih =>
      intro acc hacc
      rw [List.foldl_cons]
      exact ih _ (updateStep_strongInv acc resp hacc)
  exact main resps (db, 0, 0) h

/-- The map hands every transient failure a non-empty saved
`result_json`. -/
def MapGood (failures : List StoreFailure) (m : List (Nat × String)) :
    Prop :=
  ∀ fl ∈ failures, fl.is_transient = true →
    ∃ s, m.lookup fl.article_id = some s ∧ s ≠ ""

theorem applyFailure_strongRowInv (m : List (Nat × String))
    (fl : StoreFailure) (r : TrackingRow)
    (hgood : fl.is_transient = true →
      ∃ s, m.lookup fl.article_id = some s ∧ s ≠ "") :
    StrongRowInv (applyFailure m fl r) := by
  rw [applyFailure]
  by_cases ht : fl.is_transient = true
  · rw [if_pos ht]
    obtain ⟨s, hs, hne⟩ := hgood ht
    refine ⟨⟨fun hc => AnalysisStatus.noConfusion hc, fun _ => ?_⟩,
      fun hc => AnalysisStatus.noConfusion hc⟩
    show truthy (m.lookup fl.article_id) = true
    rw [hs]
    simpa [truthy] using hne
  · rw [if_neg ht]
    exact ⟨⟨fun hc => AnalysisStatus.noConfusion hc,
      fun hc => AnalysisStatus.noConfusion hc⟩,
      fun hc => AnalysisStatus.noConfusion hc⟩

theorem markStep_strongInv (m : List (Nat × String)) (d : CoordDb)
    (fl : StoreFailure) (h : StrongInv d)
    (hgood : fl.is_transient = true →
      ∃ s, m.lookup fl.article_id = some s ∧ s ≠ "") :
    StrongInv (markStep m d fl) := by
  rw [markStep]
  split
  · exact h
  next i hl =>
    intro r hr
    rcases mem_modifyAt _ _ _ _ hr with hold | ⟨y, _, rfl⟩
    · exact h r hold
    · exact applyFailure_strongRowInv m fl y hgood

theorem mark_storage_failures_strongInv (failures : List StoreFailure)
    (m : List (Nat × String)) (db : CoordDb) (h : StrongInv db)
    (hgood : MapGood failures m) :
    StrongInv (mark_storage_failures failures m db) := by
  rw [mark_storage_failures]
  induction failures generalizing db with
  | nil => exact h
  | cons fl fls ih =>
    rw [List.foldl_cons]
    exact ih (markStep m db fl) (markStep_strongInv m db fl h
      (hgood fl (List.mem_cons_self _ _)))
      (fun g hg ht => hgood g (List.mem_cons_of_mem _ hg) ht)

/-! Goodness of `response_json_map` at the call sites. -/

theorem mem_keys_dictInsertNat (a k : Nat) (v : String)
    (m : List (Nat × String)) :
    (∃ p ∈ dictInsertNat k v m, p.1 = a) ↔
      (∃ p ∈ m, p.1 = a) ∨ a = k := by
  rw [dictInsertNat]
  split
  next hany =>
    rcases List.any_eq_true.mp hany with ⟨q, hq, he⟩
    simp only [decide_eq_true_eq] at he
    constructor
    · rintro ⟨p, hp, hpa⟩
      rcases List.mem_map.mp hp with ⟨q', hq', rfl⟩
      by_cases h' : q'.1 = k
      · simp only [if_pos h'] at hpa ⊢
        exact Or.inr hpa.symm
      · simp only [if_neg h'] at hpa
        exact Or.inl ⟨q', hq', hpa⟩
    · rintro (⟨p, hp, hpa⟩ | rfl)
      · by_cases h' : p.1 = k
        · exact ⟨(k, v), List.mem_map.mpr ⟨q, hq, by simp [he]⟩, by
            rw [← hpa, h']⟩
        · exact ⟨p, List.mem_map.mpr ⟨p, hp, by simp [h']⟩, hpa⟩
      · exact ⟨(a, v), List.mem_map.mpr ⟨q, hq, by simp [he]⟩, rfl⟩
  next =>
    constructor
    · rintro ⟨p, hp, hpa⟩
      rcases List.mem_append.mp hp with h' | h'
      · exact Or.inl ⟨p, h', hpa⟩
      · rw [List.mem_singleton] at h'
        subst h'
        exact Or.inr hpa.symm
    · rintro (⟨p, hp, hpa⟩ | rfl)
      · exact ⟨p, List.mem_append_left _ hp, hpa⟩
      · exact ⟨(a, v), List.mem_append_right _ (List.mem_singleton.mpr rfl), rfl⟩

theorem values_dictInsertNat (k : Nat) (v : String)
    (m : List (Nat × String)) (P : String → Prop)
    (hm : ∀ p ∈ m, P p.2) (hv : P v) :
    ∀ p ∈ dictInsertNat k v m, P p.2 := by
  intro p hp
  rw [dictInsertNat] at hp
  split at hp
  · rcases List.mem_map.mp hp with ⟨q, hq, rfl⟩
    by_cases h' : q.1 = k
    · simpa [h'] using hv
    · simpa [h'] using hm q hq
  · rcases List.mem_append.mp hp with h' | h'
    · exact hm p h'
    · rw [List.mem_singleton] at h'
      subst h'
      exact hv

theorem buildMapStep_eq_none {m : List (Nat × String)}
    {r : AnalysisResponse} (hp : parse_article_id r.custom_id = none) :
    buildMapStep m r = m := by
  unfold buildMapStep
  rw [hp]

theorem buildMapStep_eq_some {m : List (Nat × String)}
    {r : AnalysisResponse} {aid : Nat}
    (hp : parse_article_id r.custom_id = some aid) :
    buildMapStep m r =
      if truthy r.result_json then dictInsertNat aid (r.result_json.getD "") m
      else m := by
  unfold buildMapStep
  rw [hp]

theorem build_map_facts (resps : List AnalysisResponse) :
    (∀ p ∈ build_response_json_map resps, p.2 ≠ "") ∧
    (∀ aid, (∃ p ∈ build_response_json_map resps, p.1 = aid) ↔
      ∃ r ∈ resps, parse_article_id r.custom_id = some aid ∧
        truthy r.result_json = true) := by
  rw [build_response_json_map]
  suffices main : ∀ (rs : List AnalysisResponse) (m : List (Nat × String)),
      (∀ p ∈ m, p.2 ≠ "") →
      (∀ p ∈ rs.foldl buildMapStep m, p.2 ≠ "") ∧
      (∀ aid, (∃ p ∈ rs.foldl buildMapStep m, p.1 = aid) ↔
        (∃ p ∈ m, p.1 = aid) ∨
        ∃ r ∈ rs, parse_article_id r.custom_id = some aid ∧
          truthy r.result_json = true) by
    have h := main resps [] (by simp)
    refine ⟨h.1, fun aid => (h.2 aid).trans ?_⟩
    simp
  intro rs
  induction rs with
  | nil => exact fun m hm => ⟨hm, fun aid => by simp⟩
  | cons r rest ih =>
    intro m hm
    rw [List.foldl_cons]
    cases hp : parse_article_id r.custom_id with
    | none =>
      rw [buildMapStep_eq_none hp]
      have h := ih m hm
      refine ⟨h.1, fun aid => (h.2 aid).trans ?_⟩
      constructor
      · rintro (hmem | ⟨x, hx, hxa⟩)
        · exact Or.inl hmem
        · exact Or.inr ⟨x, List.mem_cons_of_mem _ hx, hxa⟩
      · rintro (hmem | ⟨x, hx, hxa⟩)
        · exact Or.inl hmem
        · rcases List.mem_cons.mp hx with rfl | hx'
          · rw [hp] at hxa
            exact absurd hxa.1 (by simp)
          · exact Or.inr ⟨x, hx', hxa⟩
    | some aid₀ =>
      rw [buildMapStep_eq_some hp]
      by_cases ht : truthy r.result_json = true
      · rw [if_pos ht]
        have hvne : r.result_json.getD "" ≠ "" := by
          cases hj : r.result_json with
          | none => rw [hj] at ht; exact absurd ht (by simp [truthy])
          | some s =>
            rw [hj] at ht
            simpa [truthy] using ht
        have h := ih (dictInsertNat aid₀ (r.result_json.getD "") m)
          (values_dictInsertNat _ _ _ (fun s => s ≠ "") hm hvne)
        refine ⟨h.1, fun aid => (h.2 aid).trans ?_⟩
        rw [mem_keys_dictInsertNat]
        constructor
        · rintro ((hmem | rfl) | ⟨x, hx, hxa⟩)
          · exact Or.inl hmem
          · exact Or.inr ⟨r, List.mem_cons_self _ _, hp, ht⟩
          · exact Or.inr ⟨x, List.mem_cons_of_mem _ hx, hxa⟩
        · rintro (hmem | ⟨x, hx, hxa⟩)
          · exact Or.inl (Or.inl hmem)
          · rcases List.mem_cons.mp hx with rfl | hx'
            · rw [hp] at hxa
              exact Or.inl (Or.inr (Option.some_inj.mp hxa.1).symm)
            · exact Or.inr ⟨x, hx', hxa⟩
      · rw [if_neg ht]
        have h := ih m hm
        refine ⟨h.1, fun aid => (h.2 aid).trans ?_⟩
        constructor
        · rintro (hmem | ⟨x, hx, hxa⟩)
          · exact Or.inl hmem
          · exact Or.inr ⟨x, List.mem_cons_of_mem _ hx, hxa⟩
        · rintro (hmem | ⟨x, hx, hxa⟩)
          · exact Or.inl hmem
          · rcases List.mem_cons.mp hx with rfl | hx'
            · exact absurd hxa.2 ht
            · exact Or.inr ⟨x, hx', hxa⟩

/-- A key present in the built map looks up to a non-empty saved JSON. -/
theorem build_map_lookup_good (resps : List AnalysisResponse) (aid : Nat)
    (h : ∃ r ∈ resps, parse_article_id r.custom_id = some aid ∧
      truthy r.result_json = true) :
    ∃ s, (build_response_json_map resps).lookup aid = some s ∧ s ≠ "" := by
  obtain ⟨hW, hK⟩ := build_map_facts resps
  obtain ⟨v, hv⟩ := lookup_some_of_key_mem _ aid ((hK aid).mpr h)
  exact ⟨v, hv, hW (aid, v) (lookup_mem _ _ _ hv)⟩

/-! ### C2 — the store side and the marking passes, pointwise -/

theorem applyFailure_not_success (m : List (Nat × String))
    (fl : StoreFailure) (r : TrackingRow) :
    ¬ (applyFailure m fl r).status = .success := by
  rw [applyFailure]
  split <;> simp

theorem applyFailure_article_id (m : List (Nat × String))
    (fl : StoreFailure) (r : TrackingRow) :
    (applyFailure m fl r).article_id = r.article_id := by
  rw [applyFailure]
  split <;> rfl

theorem map_modifyAt {α β : Type} (f : α → α) (g : α → β)
    (h : ∀ x, g (f x) = g x) (i : Nat) (l : List α) :
    (modifyAt f i l).map g = l.map g := by
  induction l generalizing i with
  | nil => cases i <;> rfl
  | cons a l ih =>
    cases i with
    | zero => simp [modifyAt, h a]
    | succ n => simp [modifyAt, ih n]

theorem map_foldl_modifyAt {α β : Type} (f : α → α) (g : α → β)
    (h : ∀ x, g (f x) = g x) (idxs : List Nat) (l : List α) :
    (idxs.foldl (fun rs i => modifyAt f i rs) l).map g = l.map g := by
  induction idxs generalizing l with
  | nil => rfl
  | cons i rest ih => rw [List.foldl_cons, ih, map_modifyAt f g h]

theorem lastIdxWhere_none_of_all_false {α : Type} (p : α → Bool)
    (l : List α) (h : ∀ x ∈ l, p x = false) : lastIdxWhere p l = none := by
  induction l with
  | nil => rfl
  | cons a l ih =>
    rw [lastIdxWhere, ih (fun x hx => h x (List.mem_cons_of_mem _ hx)),
      h a (List.mem_cons_self _ _)]
    simp

theorem get?_id_inj {l : List TrackingRow}
    (hnd : (l.map TrackingRow.article_id).Nodup) {i j : Nat}
    {r s : TrackingRow} (hi : l.get? i = some r) (hj : l.get? j = some s)
    (hrs : r.article_id = s.article_id) : i = j := by
  induction l generalizing i j with
  | nil => simp at hi
  | cons a l ih =>
    rw [List.map_cons, List.nodup_cons] at hnd
    cases i with
    | zero =>
      cases j with
      | zero => rfl
      | succ n =>
        exfalso
        have hr : a = r := by simpa using hi
        have hs : s ∈ l := List.get?_mem (by simpa using hj)
        apply hnd.1
        rw [hr, hrs]
        exact List.mem_map.mpr ⟨s, hs, rfl⟩
    | succ m =>
      cases j with
      | zero =>
        exfalso
        have hs : a = s := by simpa using hj
        have hr : r ∈ l := List.get?_mem (by simpa using hi)
        apply hnd.1
        rw [hs, ← hrs]
        exact List.mem_map.mpr ⟨r, hr, rfl⟩
      | succ n =>
        have := ih hnd.2 (by simpa using hi) (by simpa using hj)
        omega

theorem store_batch_snd (cfg : CoordCfg) (amap : List Nat)
    (resps : List AnalysisResponse) :
    (store_batch cfg amap resps).2 =
      resps.filterMap (storeOutcomeOf cfg amap) := by
  rw [store_batch]
  suffices main : ∀ (rs : List AnalysisResponse) (acc : Nat × List StoreFailure),
      (rs.foldl (storeBatchStep cfg amap) acc).2 =
        acc.2 ++ rs.filterMap (storeOutcomeOf cfg amap) by
    simpa using main resps (0, [])
  intro rs
  induction rs with
  | nil => simp
  | cons r rest ih =>
    intro acc
    rw [List.foldl_cons, ih, List.filterMap_cons]
    cases ho : storeOutcomeOf cfg amap r with
    | none =>
      have hsnd : (storeBatchStep cfg amap acc r).2 = acc.2 := by
        rw [storeBatchStep, ho]
        cases parse_article_id r.custom_id <;> rfl
      rw [hsnd]
    | some fl =>
      have hsnd : (storeBatchStep cfg amap acc r).2 = acc.2 ++ [fl] := by
        rw [storeBatchStep, ho]
      rw [hsnd, List.append_assoc]
      rfl

theorem storeOutcomeOf_transient (cfg : CoordCfg) (amap : List Nat)
    (resp : AnalysisResponse) (fl : StoreFailure)
    (ho : storeOutcomeOf cfg amap resp = some fl)
    (ht : fl.is_transient = true) :
    parse_article_id resp.custom_id = some fl.article_id ∧
      truthy resp.result_json = true := by
  rw [storeOutcomeOf] at ho
  split at ho
  next => exact Option.noConfusion ho
  next aid hp =>
    split at ho
    next h1 =>
      rw [← Option.some_inj.mp ho] at ht
      simp at ht
    next h1 =>
      split at ho
      next h2 =>
        rw [← Option.some_inj.mp ho] at ht
        simp at ht
      next h2 =>
        split at ho
        next h3 =>
          rw [← Option.some_inj.mp ho] at ht
          simp at ht
        next h3 =>
          split at ho
          next => exact Option.noConfusion ho
          next msg ha =>
            have hfl := Option.some_inj.mp ho
            constructor
            · rw [hp, ← hfl]
            · exact not_not.mp h2
          next msg ha =>
            rw [← Option.some_inj.mp ho] at ht
            simp at ht

theorem map_lookup_good (resps : List AnalysisResponse) (aid : Nat)
    (h : ∃ p ∈ build_response_json_map resps, p.1 = aid) :
    ∃ s, (build_response_json_map resps).lookup aid = some s ∧ s ≠ "" := by
  obtain ⟨v, hv⟩ := lookup_some_of_key_mem _ aid h
  exact ⟨v, hv, (build_map_facts resps).1 (aid, v) (lookup_mem _ _ _ hv)⟩

theorem markStep_eq_none (m : List (Nat × String)) (d : CoordDb)
    (fl : StoreFailure)
    (hl : lastIdxWhere (fun r =>
      r.article_id = fl.article_id && r.status = .success) d.rows = none) :
    markStep m d fl = d := by
  rw [markStep, hl]

theorem markStep_eq_some (m : List (Nat × String)) (d : CoordDb)
    (fl : StoreFailure) (t : Nat)
    (hl : lastIdxWhere (fun r =>
      r.article_id = fl.article_id && r.status = .success) d.rows = some t) :
    markStep m d fl =
      { d with rows := modifyAt (applyFailure m fl) t d.rows } := by
  rw [markStep, hl]

theorem markStep_ids (m : List (Nat × String)) (d : CoordDb)
    (fl : StoreFailure) :
    (markStep m d fl).rows.map TrackingRow.article_id =
      d.rows.map TrackingRow.article_id := by
  rw [markStep]
  split
  · rfl
  · exact map_modifyAt _ _ (applyFailure_article_id m fl) _ _

/-- Within `_mark_storage_failures`, a row that is not SUCCESS is never
touched. -/
theorem mark_get?_preserve_nonsuccess (fls : List StoreFailure)
    (m : List (Nat × String)) (db : CoordDb) (j : Nat) (y : TrackingRow)
    (hy : db.rows.get? j = some y) (hns : ¬ y.status = .success) :
    (mark_storage_failures fls m db).rows.get? j = some y := by
  rw [mark_storage_failures]
  suffices main : ∀ (fls : List StoreFailure) (db : CoordDb),
      db.rows.get? j = some y →
      (fls.foldl (markStep m) db).rows.get? j = some y by
    exact main fls db hy
  intro fls
  induction fls with
  | nil => exact fun db h => h
  | cons fl fls ih =>
    intro db h
    rw [List.foldl_cons]
    apply ih
    rw [markStep]
    split
    · exact h
    next t hl =>
      obtain ⟨x, hx, hpx⟩ := lastIdxWhere_some _ _ _ hl
      have hxs : x.status = .success := by
        simp only [Bool.and_eq_true, decide_eq_true_eq] at hpx
        exact hpx.2
      have hjt : ¬ j = t := by
        intro hjt
        subst hjt
        rw [h] at hx
        have hyx : y = x := Option.some_inj.mp hx
        rw [hyx] at hns
        exact hns hxs
      show (modifyAt (applyFailure m fl) t db.rows).get? j = some y
      rw [get?_modifyAt, if_neg hjt, h]

/-- Each position is either untouched by `_mark_storage_failures` or
restamped once from a SUCCESS row. -/
theorem mark_get?_cases (fls : List StoreFailure) (m : List (Nat × String))
    (db : CoordDb) (j : Nat) :
    (mark_storage_failures fls m db).rows.get? j = db.rows.get? j ∨
    ∃ fl ∈ fls, ∃ q, db.rows.get? j = some q ∧ q.status = .success ∧
      (mark_storage_failures fls m db).rows.get? j =
        some (applyFailure m fl q) := by
  rw [mark_storage_failures]
  suffices main : ∀ (fls : List StoreFailure) (db : CoordDb),
      (fls.foldl (markStep m) db).rows.get? j = db.rows.get? j ∨
      ∃ fl ∈ fls, ∃ q, db.rows.get? j = some q ∧ q.status = .success ∧
        (fls.foldl (markStep m) db).rows.get? j =
          some (applyFailure m fl q) by
    exact main fls db
  intro fls
  induction fls with
  | nil => exact fun db => Or.inl rfl
  | cons fl fls ih =>
    intro db
    rw [List.foldl_cons]
    cases hl : lastIdxWhere (fun r =>
        r.article_id = fl.article_id && r.status = .success) db.rows with
    | none =>
      rw [markStep_eq_none m db fl hl]
      rcases ih db with h | ⟨g, hg, q, hq, hqs, hres⟩
      · exact Or.inl h
      · exact Or.inr ⟨g, List.mem_cons_of_mem _ hg, q, hq, hqs, hres⟩
    | some t =>
      rw [markStep_eq_some m db fl t hl]
      obtain ⟨x, hx, hpx⟩ := lastIdxWhere_some _ _ _ hl
      have hxs : x.status = .success := by
        simp only [Bool.and_eq_true, decide_eq_true_eq] at hpx
        exact hpx.2
      rcases ih { db with rows := modifyAt (applyFailure m fl) t db.rows }
        with h | ⟨g, hg, q, hq, hqs, hres⟩
      · by_cases hjt : j = t
        · subst hjt
          refine Or.inr ⟨fl, List.mem_cons_self _ _, x, hx, hxs, ?_⟩
          rw [h]
          show (modifyAt (applyFailure m fl) j db.rows).get? j =
            some (applyFailure m fl x)
          rw [get?_modifyAt, if_pos rfl, hx]
          rfl
        · refine Or.inl ?_
          rw [h]
          show (modifyAt (applyFailure m fl) t db.rows).get? j =
            db.rows.get? j
          rw [get?_modifyAt, if_neg hjt]
      · by_cases hjt : j = t
        · subst hjt
          exfalso
          have hdb' : ({ db with
              rows := modifyAt (applyFailure m fl) j db.rows } :
                CoordDb).rows.get? j = some (applyFailure m fl x) := by
            show (modifyAt (applyFailure m fl) j db.rows).get? j =
              some (applyFailure m fl x)
            rw [get?_modifyAt, if_pos rfl, hx]
            rfl
          rw [hdb'] at hq
          have hqe : applyFailure m fl x = q := Option.some_inj.mp hq
          rw [← hqe] at hqs
          exact applyFailure_not_success m fl x hqs
        · refine Or.inr ⟨g, List.mem_cons_of_mem _ hg, q, ?_, hqs, hres⟩
          have hdb' : ({ db with
              rows := modifyAt (applyFailure m fl) t db.rows } :
                CoordDb).rows.get? j = db.rows.get? j := by
            show (modifyAt (applyFailure m fl) t db.rows).get? j =
              db.rows.get? j
            rw [get?_modifyAt, if_neg hjt]
          rw [hdb'] at hq
          exact hq

/-- `markStep` for a failure of a different article leaves the row alone. -/
theorem markStep_get?_other (m : List (Nat × String)) (db : CoordDb)
    (fl : StoreFailure) (j : Nat) (q : TrackingRow)
    (hj : db.rows.get? j = some q)
    (hid : ¬ fl.article_id = q.article_id) :
    (markStep m db fl).rows.get? j = some q := by
  rw [markStep]
  split
  · exact hj
  next t hl =>
    obtain ⟨x, hx, hpx⟩ := lastIdxWhere_some _ _ _ hl
    have hxid : x.article_id = fl.article_id := by
      simp only [Bool.and_eq_true, decide_eq_true_eq] at hpx
      exact hpx.1
    have hjt : ¬ j = t := by
      intro hjt
      subst hjt
      rw [hj] at hx
      have hqx : q = x := Option.some_inj.mp hx
      rw [hqx] at hid
      rw [hxid] at hid
      exact hid rfl
    show (modifyAt (applyFailure m fl) t db.rows).get? j = some q
    rw [get?_modifyAt, if_neg hjt, hj]

/-- Under per-article uniqueness of rows, a SUCCESS row whose article has a
failure in the list is definitely restamped by `_mark_storage_failures`. -/
theorem mark_get?_marked (fls : List StoreFailure) (m : List (Nat × String))
    (db : CoordDb) (j : Nat) (q : TrackingRow)
    (hj : db.rows.get? j = some q) (hs : q.status = .success)
    (hnd : (db.rows.map TrackingRow.article_id).Nodup)
    (hfl : ∃ fl ∈ fls, fl.article_id = q.article_id) :
    ∃ fl ∈ fls, fl.article_id = q.article_id ∧
      (mark_storage_failures fls m db).rows.get? j =
        some (applyFailure m fl q) := by
  rw [mark_storage_failures]
  suffices main : ∀ (fls : List StoreFailure) (db : CoordDb),
      db.rows.get? j = some q →
      (db.rows.map TrackingRow.article_id).Nodup →
      (∃ fl ∈ fls, fl.article_id = q.article_id) →
      ∃ fl ∈ fls, fl.article_id = q.article_id ∧
        (fls.foldl (markStep m) db).rows.get? j =
          some (applyFailure m fl q) by
    exact main fls db hj hnd hfl
  intro fls
  induction fls with
  | nil =>
    rintro db _ _ ⟨fl, hfl, _⟩
    simp at hfl
  | cons fl fls ih =>
    rintro db hj hnd hfl
    rw [List.foldl_cons]
    by_cases hid : fl.article_id = q.article_id
    · cases hl : lastIdxWhere (fun r =>
          r.article_id = fl.article_id && r.status = .success) db.rows with
      | none =>
        have := lastIdxWhere_eq_none _ _ hl q (List.get?_mem hj)
        simp [hid, hs] at this
      | some t =>
        obtain ⟨x, hx, hpx⟩ := lastIdxWhere_some _ _ _ hl
        have hprops : x.article_id = fl.article_id ∧ x.status = .success := by
          simpa using hpx
        have hjt : t = j := get?_id_inj hnd hx hj (by rw [hprops.1, hid])
        rw [markStep_eq_some m db fl t hl]
        refine ⟨fl, List.mem_cons_self _ _, hid, ?_⟩
        show (mark_storage_failures fls m { db with
          rows := modifyAt (applyFailure m fl) t db.rows }).rows.get? j =
            some (applyFailure m fl q)
        apply mark_get?_preserve_nonsuccess
        · show (modifyAt (applyFailure m fl) t db.rows).get? j =
            some (applyFailure m fl q)
          rw [get?_modifyAt, if_pos hjt.symm, hj]
          rfl
        · exact applyFailure_not_success m fl q
    · have hstep : (markStep m db fl).rows.get? j = some q :=
        markStep_get?_other m db fl j q hj hid
      have hnd' : ((markStep m db fl).rows.map TrackingRow.article_id).Nodup := by
        rw [markStep_ids]
        exact hnd
      obtain ⟨g, hg, hgq⟩ := hfl
      have hgfls : g ∈ fls := by
        rcases List.mem_cons.mp hg with rfl | h'
        · exact absurd hgq hid
        · exact h'
      obtain ⟨g', hg', hg'q, hres⟩ :=
        ih (markStep m db fl) hstep hnd' ⟨g, hgfls, hgq⟩
      exact ⟨g', List.mem_cons_of_mem _ hg', hg'q, hres⟩

theorem coordCommits_commitDb_cons (x : CoordDb) (tr : List AnalysisEvent) :
    coordCommits (.commitDb x :: tr) = x :: coordCommits tr := rfl

theorem coordCommits_submitBatch_cons (b : String)
    (tr : List AnalysisEvent) :
    coordCommits (.submitBatch b :: tr) = coordCommits tr := rfl

theorem coordCommits_pollBatch_cons (b : String) (tr : List AnalysisEvent) :
    coordCommits (.pollBatch b :: tr) = coordCommits tr := rfl

theorem coordCommits_map_commitDb (l : List CoordDb) :
    coordCommits (l.map .commitDb) = l := by
  induction l with
  | nil => rfl
  | cons x l ih => rw [List.map_cons, coordCommits_commitDb_cons, ih]

/-- Every state committed inside `store_results` keeps the strengthened
invariant. -/
theorem store_results_strongInv (cfg : CoordCfg)
    (resps : List AnalysisResponse) (amap? : Option (List Nat))
    (db : CoordDb) (h : StrongInv db) :
    ∀ d ∈ (store_results cfg resps amap? db).2, StrongInv d := by
  intro d hd
  simp only [store_results] at hd
  split at hd
  · simp at hd
  split at hd
  · simp at hd
  split at hd
  · simp at hd
  next amap =>
    split at hd
    next =>
      split at hd
      · simp at hd
      next hsb =>
        rw [List.mem_singleton] at hd
        subst hd
        apply mark_storage_failures_strongInv _ _ _ h
        intro fl hfl ht
        rw [store_batch_snd] at hfl
        obtain ⟨resp, hresp, ho⟩ := List.mem_filterMap.mp hfl
        obtain ⟨hp, htj⟩ := storeOutcomeOf_transient cfg amap resp fl ho ht
        exact build_map_lookup_good resps fl.article_id ⟨resp, hresp, hp, htj⟩
    next e =>
      rw [List.mem_singleton] at hd
      subst hd
      apply mark_storage_failures_strongInv _ _ _ h
      intro fl hfl ht
      obtain ⟨p, hp, hpe⟩ := List.mem_map.mp hfl
      have hfa : fl.article_id = p.1 := by rw [← hpe]
      rw [hfa]
      exact map_lookup_good resps p.1 ⟨p, hp, rfl⟩

theorem analyzeAfterPoll_commits_strongInv (cfg : CoordCfg)
    (pollOutcome : Option (List AnalysisResponse)) (to_analyze : List Nat)
    (db : CoordDb) (h : StrongInv db) :
    ∀ d ∈ coordCommits (analyzeAfterPoll cfg pollOutcome to_analyze db),
      StrongInv d := by
  intro d hd
  cases pollOutcome with
  | none => simp [analyzeAfterPoll, coordCommits] at hd
  | some resps =>
    simp only [analyzeAfterPoll] at hd
    rw [coordCommits_commitDb_cons, coordCommits_map_commitDb] at hd
    rcases List.mem_cons.mp hd with rfl | hd'
    · exact update_tracking_strongInv _ _ h
    · exact store_results_strongInv _ _ _ _
        (update_tracking_strongInv _ _ h) d hd'

/-- Every commit of `analyze_articles` keeps the strengthened invariant. -/
theorem analyze_commits_strongInv (cfg : CoordCfg) (submitId : String)
    (pollOutcome : Option (List AnalysisResponse)) (articles : List Nat)
    (db0 : CoordDb) (h : StrongInv db0) :
    ∀ d ∈ coordCommits
      (analyze_articles cfg submitId pollOutcome articles db0),
      StrongInv d := by
  intro d hd
  simp only [analyze_articles] at hd
  split at hd
  · simp [coordCommits] at hd
  split at hd
  next b hb =>
    rw [coordCommits_pollBatch_cons] at hd
    exact analyzeAfterPoll_commits_strongInv cfg pollOutcome _ db0 h d hd
  next hb =>
    rw [coordCommits_submitBatch_cons, coordCommits_commitDb_cons,
      coordCommits_commitDb_cons, coordCommits_pollBatch_cons] at hd
    have hdb1 : StrongInv { db0 with runBatchId := some submitId } :=
      fun r hr => h r hr
    have hdb2 : StrongInv (create_tracking_records
        (toAnalyzeOf articles db0) submitId
        { db0 with runBatchId := some submitId }) :=
      create_tracking_strongInv _ _ _ hdb1
    rcases List.mem_cons.mp hd with rfl | hd
    · exact hdb1
    rcases List.mem_cons.mp hd with rfl | hd
    · exact hdb2
    exact analyzeAfterPoll_commits_strongInv cfg pollOutcome _ _ hdb2 d hd

/-- Every commit of `retry_failed` keeps the strengthened invariant. -/
theorem retry_failed_commits_strongInv (cfg : CoordCfg) (submitId : String)
    (pollOutcome : Option (List AnalysisResponse)) (db0 : CoordDb)
    (h : StrongInv db0) :
    ∀ d ∈ coordCommits (retry_failed cfg submitId pollOutcome db0),
      StrongInv d := by
  intro d hd
  cases pollOutcome with
  | none =>
    simp only [retry_failed] at hd
    split at hd
    · simp [coordCommits] at hd
    split at hd
    · simp [coordCommits] at hd
    rw [coordCommits_commitDb_cons, coordCommits_submitBatch_cons,
      coordCommits_commitDb_cons, coordCommits_pollBatch_cons] at hd
    have hdb1 : StrongInv { db0 with
        rows := db0.rows.filter (fun r => ¬ r.status = .failed) } :=
      fun r hr => h r (List.mem_of_mem_filter hr)
    rcases List.mem_cons.mp hd with rfl | hd
    · exact hdb1
    rcases List.mem_cons.mp hd with rfl | hd
    · exact create_tracking_strongInv _ _ _ hdb1
    simp [coordCommits] at hd
  | some resps =>
    simp only [retry_failed] at hd
    split at hd
    · simp [coordCommits] at hd
    split at hd
    · simp [coordCommits] at hd
    rw [coordCommits_commitDb_cons, coordCommits_submitBatch_cons,
      coordCommits_commitDb_cons, coordCommits_pollBatch_cons,
      coordCommits_commitDb_cons, coordCommits_map_commitDb] at hd
    have hdb1 : StrongInv { db0 with
        rows := db0.rows.filter (fun r => ¬ r.status = .failed) } :=
      fun r hr => h r (List.mem_of_mem_filter hr)
    have hdb2 := create_tracking_strongInv (cfg.articleStore.filter
      (fun aid => ((db0.rows.filter (fun r => r.status = .failed)).map
        TrackingRow.article_id).contains aid)) submitId _ hdb1
    rcases List.mem_cons.mp hd with rfl | hd
    · exact hdb1
    rcases List.mem_cons.mp hd with rfl | hd
    · exact hdb2
    rcases List.mem_cons.mp hd with rfl | hd
    · exact update_tracking_strongInv _ _ hdb2
    exact store_results_strongInv _ _ _ _
      (update_tracking_strongInv _ _ hdb2) d hd

/-! ### C2 — `retry_store_failed`, pointwise accounting of its passes -/

/-- Under the strengthened invariant the `revert to FAILED` pass does
nothing: every STORE_FAILED row already has a saved `result_json`. -/
theorem revertNoJson_id (db0 : CoordDb) (h : StrongInv db0) :
    revertNoJson (idxsWhere (fun r => r.status = .store_failed) db0.rows)
      db0.rows = db0.rows := by
  rw [revertNoJson]
  apply foldl_modifyAt_id _ _ (idxsWhere_nodup _ _)
  intro i hi x hx
  obtain ⟨x', hx', hpx⟩ := (mem_idxsWhere _ _ _).mp hi
  rw [hx] at hx'
  have hxx : x = x' := Option.some_inj.mp hx'
  have hxs : x.status = .store_failed := by
    rw [hxx]
    simpa using hpx
  have hxt : truthy x.result_json = true :=
    (h x (List.get?_mem hx)).1.2 hxs
  rw [if_pos hxt]

theorem resetToSuccess_get? (idxs : List Nat) (hnd : idxs.Nodup)
    (rows : List TrackingRow) (j : Nat) :
    (resetToSuccess idxs rows).get? j =
      if j ∈ idxs then (rows.get? j).map (fun r =>
        if r.status = .store_failed && truthy r.result_json then
          { r with status := .success }
        else r)
      else rows.get? j := by
  rw [resetToSuccess]
  exact get?_foldl_modifyAt _ _ hnd _ _

theorem clearSuccessJson_get? (idxs : List Nat) (hnd : idxs.Nodup)
    (rows : List TrackingRow) (j : Nat) :
    (clearSuccessJson idxs rows).get? j =
      if j ∈ idxs then (rows.get? j).map (fun r =>
        if r.status = .success then { r with result_json := none } else r)
      else rows.get? j := by
  rw [clearSuccessJson]
  exact get?_foldl_modifyAt _ _ hnd _ _

theorem resetToSuccess_ids (idxs : List Nat) (rows : List TrackingRow) :
    (resetToSuccess idxs rows).map TrackingRow.article_id =
      rows.map TrackingRow.article_id := by
  rw [resetToSuccess]
  apply map_foldl_modifyAt
  intro x
  split <;> rfl

/-- Under the strengthened invariant every captured STORE_FAILED record
has a saved `result_json`, so the rebuilt responses are exactly one per
record. -/
theorem responses_eq (db0 : CoordDb) (h : StrongInv db0) :
    (db0.rows.filter (fun r => r.status = .store_failed)).filterMap
        (fun r => if truthy r.result_json then
          some (⟨mkCustomId r.article_id, true, r.result_json, none⟩ :
            AnalysisResponse)
        else none) =
      (db0.rows.filter (fun r => r.status = .store_failed)).map
        (fun r => (⟨mkCustomId r.article_id, true, r.result_json, none⟩ :
          AnalysisResponse)) := by
  apply filterMap_eq_map_of_some
  intro r hr
  have hrs : r.status = .store_failed := by
    simpa using (List.mem_filter.mp hr).2
  have hrt : truthy r.result_json = true :=
    (h r (List.mem_filter.mp hr).1).1.2 hrs
  rw [if_pos hrt]

/-- Every captured record's article id is a key of the rebuilt
`response_json_map`. -/
theorem records_key_mem (db0 : CoordDb) (h : StrongInv db0)
    (x : TrackingRow)
    (hx : x ∈ db0.rows.filter (fun r => r.status = .store_failed)) :
    ∃ p ∈ build_response_json_map
      ((db0.rows.filter (fun r => r.status = .store_failed)).map
        (fun r => (⟨mkCustomId r.article_id, true, r.result_json, none⟩ :
          AnalysisResponse))),
      p.1 = x.article_id := by
  apply ((build_map_facts _).2 x.article_id).mpr
  refine ⟨_, List.mem_map.mpr ⟨x, hx, rfl⟩, ?_, ?_⟩
  · exact parse_article_id_mkCustomId x.article_id
  · have hrs : x.status = .store_failed := by
      simpa using (List.mem_filter.mp hx).2
    exact (h x (List.mem_filter.mp hx).1).1.2 hrs

/-- The positions of the captured STORE_FAILED rows
(`retry_store_failed`'s `records`, identified positionally). -/
def sfIdxs (db0 : CoordDb) : List Nat :=
  idxsWhere (fun r => r.status = .store_failed) db0.rows

theorem sfIdxs_nodup (db0 : CoordDb) : (sfIdxs db0).Nodup :=
  idxsWhere_nodup _ _

/-- `retry_store_failed`'s state `dbB` (after the revert pass, which is
the identity under the strengthened invariant, and the reset pass). -/
def resetDb (db0 : CoordDb) : CoordDb :=
  { db0 with rows := resetToSuccess (sfIdxs db0) db0.rows }

/-- `retry_store_failed`'s marked state (its `dbC`, or the raise-branch
final state). -/
def markedDb (fls : List StoreFailure) (m : List (Nat × String))
    (db0 : CoordDb) : CoordDb :=
  mark_storage_failures fls m (resetDb db0)

/-- `retry_store_failed`'s final state `dbD` in the no-raise branch. -/
def clearedDb (fls : List StoreFailure) (m : List (Nat × String))
    (db0 : CoordDb) : CoordDb :=
  { markedDb fls m db0 with
    rows := clearSuccessJson (sfIdxs db0) (markedDb fls m db0).rows }

/-- After the reset-to-SUCCESS pass, marking a failure set that covers
every captured STORE_FAILED article (with a good map) restores the
strengthened invariant, provided article ids are unique per row. -/
theorem mark_after_reset_strongInv (fls : List StoreFailure)
    (m : List (Nat × String)) (db0 : CoordDb) (h : StrongInv db0)
    (hnd : (db0.rows.map TrackingRow.article_id).Nodup)
    (hgood : MapGood fls m)
    (hcover : ∀ x ∈ db0.rows, x.status = .store_failed →
      ∃ fl ∈ fls, fl.article_id = x.article_id) :
    StrongInv (markedDb fls m db0) := by
  intro r hr
  obtain ⟨j, hj⟩ := List.get?_of_mem hr
  by_cases hji : j ∈ sfIdxs db0
  · obtain ⟨x, hx, hpx⟩ := (mem_idxsWhere _ _ _).mp hji
    have hxs : x.status = .store_failed := by simpa using hpx
    have hxt : truthy x.result_json = true := (h x (List.get?_mem hx)).1.2 hxs
    have hzB : (resetDb db0).rows.get? j =
        some { x with status := .success } := by
      show (resetToSuccess (sfIdxs db0) db0.rows).get? j =
        some { x with status := .success }
      rw [resetToSuccess_get? (sfIdxs db0) (sfIdxs_nodup db0) db0.rows j, if_pos hji, hx]
      simp [hxs, hxt]
    have hndB : ((resetDb db0).rows.map TrackingRow.article_id).Nodup := by
      show ((resetToSuccess (sfIdxs db0) db0.rows).map
        TrackingRow.article_id).Nodup
      rw [resetToSuccess_ids]
      exact hnd
    obtain ⟨fl, hfl, hfla, hres⟩ := mark_get?_marked fls m (resetDb db0)
      j _ hzB rfl hndB (hcover x (List.get?_mem hx) hxs)
    rw [show markedDb fls m db0 =
      mark_storage_failures fls m (resetDb db0) from rfl] at hj
    rw [hres] at hj
    have hre : applyFailure m fl { x with status := .success } = r :=
      Option.some_inj.mp hj
    rw [← hre]
    exact applyFailure_strongRowInv m fl _ (hgood fl hfl)
  · have hBj : (resetDb db0).rows.get? j = db0.rows.get? j := by
      show (resetToSuccess (sfIdxs db0) db0.rows).get? j = db0.rows.get? j
      rw [resetToSuccess_get? (sfIdxs db0) (sfIdxs_nodup db0) db0.rows j, if_neg hji]
    rw [show markedDb fls m db0 =
      mark_storage_failures fls m (resetDb db0) from rfl] at hj
    rcases mark_get?_cases fls m (resetDb db0) j with
      hc | ⟨fl, hfl, q, hq, hqs, hres⟩
    · rw [hc, hBj] at hj
      exact h r (List.get?_mem hj)
    · rw [hres] at hj
      have hre : applyFailure m fl q = r := Option.some_inj.mp hj
      rw [← hre]
      exact applyFailure_strongRowInv m fl q (hgood fl hfl)

/-- Clearing `result_json` on the rows still SUCCESS after the marking
pass restores the strengthened invariant. -/
theorem clear_after_mark_strongInv (fls : List StoreFailure)
    (m : List (Nat × String)) (db0 : CoordDb) (h : StrongInv db0)
    (hgood : MapGood fls m) :
    StrongInv (clearedDb fls m db0) := by
  intro r hr
  obtain ⟨j, hj⟩ := List.get?_of_mem hr
  have hj' : (clearSuccessJson (sfIdxs db0)
      (markedDb fls m db0).rows).get? j = some r := hj
  by_cases hji : j ∈ sfIdxs db0
  · rw [clearSuccessJson_get? (sfIdxs db0) (sfIdxs_nodup db0) (markedDb fls m db0).rows j,
      if_pos hji] at hj'
    rcases mark_get?_cases fls m (resetDb db0) j with
      hc | ⟨fl, hfl, q, hq, hqs, hres⟩
    · obtain ⟨x, hx, hpx⟩ := (mem_idxsWhere _ _ _).mp hji
      have hxs : x.status = .store_failed := by simpa using hpx
      have hxt : truthy x.result_json = true :=
        (h x (List.get?_mem hx)).1.2 hxs
      have hzB : (resetDb db0).rows.get? j =
          some { x with status := .success } := by
        show (resetToSuccess (sfIdxs db0) db0.rows).get? j =
          some { x with status := .success }
        rw [resetToSuccess_get? (sfIdxs db0) (sfIdxs_nodup db0) db0.rows j, if_pos hji, hx]
        simp [hxs, hxt]
      rw [show (markedDb fls m db0).rows =
        (mark_storage_failures fls m (resetDb db0)).rows from rfl,
        hc, hzB] at hj'
      have hr' : r = { x with status := .success, result_json := none } := by
        simpa using hj'.symm
      rw [hr']
      exact ⟨⟨fun _ => rfl, fun hcs => AnalysisStatus.noConfusion hcs⟩,
        fun hcs => AnalysisStatus.noConfusion hcs⟩
    · have hns := applyFailure_not_success m fl q
      rw [show (markedDb fls m db0).rows =
        (mark_storage_failures fls m (resetDb db0)).rows from rfl,
        hres] at hj'
      have hr' : r = applyFailure m fl q := by
        simpa [hns] using hj'.symm
      rw [hr']
      exact applyFailure_strongRowInv m fl q (hgood fl hfl)
  · rw [clearSuccessJson_get? (sfIdxs db0) (sfIdxs_nodup db0) (markedDb fls m db0).rows j,
      if_neg hji] at hj'
    have hBj : (resetDb db0).rows.get? j = db0.rows.get? j := by
      show (resetToSuccess (sfIdxs db0) db0.rows).get? j = db0.rows.get? j
      rw [resetToSuccess_get? (sfIdxs db0) (sfIdxs_nodup db0) db0.rows j, if_neg hji]
    rw [show (markedDb fls m db0).rows =
      (mark_storage_failures fls m (resetDb db0)).rows from rfl] at hj'
    rcases mark_get?_cases fls m (resetDb db0) j with
      hc | ⟨fl, hfl, q, hq, hqs, hres⟩
    · rw [hc, hBj] at hj'
      exact h r (List.get?_mem hj')
    · rw [hres] at hj'
      have hre : applyFailure m fl q = r := Option.some_inj.mp hj'
      rw [← hre]
      exact applyFailure_strongRowInv m fl q (hgood fl hfl)

/-- Under the strengthened invariant, when storage raises, the last commit
of `retry_store_failed` is the marked state. -/
theorem retry_store_failed_final_raise (cfg : CoordCfg) (db0 : CoordDb)
    (h : StrongInv db0)
    (hrec : ¬ db0.rows.filter (fun r => r.status = .store_failed) = [])
    (hts : cfg.timescaleConfigured = true) (e : String)
    (hsr : cfg.storeRaises = some e) :
    (coordCommits (retry_store_failed cfg db0)).getLast? =
      some (markedDb
        ((build_response_json_map
          ((db0.rows.filter (fun r => r.status = .store_failed)).map
            (fun r => (⟨mkCustomId r.article_id, true, r.result_json,
              none⟩ : AnalysisResponse)))).map (fun p =>
          (⟨p.1, "TimescaleDB connection error: " ++ e, true⟩ :
            StoreFailure)))
        (build_response_json_map
          ((db0.rows.filter (fun r => r.status = .store_failed)).map
            (fun r => (⟨mkCustomId r.article_id, true, r.result_json,
              none⟩ : AnalysisResponse))))
        db0) := by
  simp only [retry_store_failed]
  rw [if_neg hrec, if_neg (not_not_intro hts), responses_eq db0 h,
    if_neg (fun hc => hrec (List.map_eq_nil_iff.mp hc)),
    revertNoJson_id db0 h, hsr]
  rfl

/-- Under the strengthened invariant, when storage does not raise, the
last commit of `retry_store_failed` is the cleared state. -/
theorem retry_store_failed_final_none (cfg : CoordCfg) (db0 : CoordDb)
    (h : StrongInv db0)
    (hrec : ¬ db0.rows.filter (fun r => r.status = .store_failed) = [])
    (hts : cfg.timescaleConfigured = true)
    (hsr : cfg.storeRaises = none) :
    (coordCommits (retry_store_failed cfg db0)).getLast? =
      some (clearedDb
        (store_batch cfg (cfg.articleStore.filter (fun aid =>
          ((db0.rows.filter (fun r => r.status = .store_failed)).map
            TrackingRow.article_id).contains aid))
          ((db0.rows.filter (fun r => r.status = .store_failed)).map
            (fun r => (⟨mkCustomId r.article_id, true, r.result_json,
              none⟩ : AnalysisResponse)))).2
        (build_response_json_map
          ((db0.rows.filter (fun r => r.status = .store_failed)).map
            (fun r => (⟨mkCustomId r.article_id, true, r.result_json,
              none⟩ : AnalysisResponse))))
        db0) := by
  simp only [retry_store_failed]
  rw [if_neg hrec, if_neg (not_not_intro hts), responses_eq db0 h,
    if_neg (fun hc => hrec (List.map_eq_nil_iff.mp hc)),
    revertNoJson_id db0 h, hsr]
  by_cases hsb : (store_batch cfg (cfg.articleStore.filter (fun aid =>
      ((db0.rows.filter (fun r => r.status = .store_failed)).map
        TrackingRow.article_id).contains aid))
      ((db0.rows.filter (fun r => r.status = .store_failed)).map
        (fun r => (⟨mkCustomId r.article_id, true, r.result_json,
          none⟩ : AnalysisResponse)))).2 = []
  · rw [hsb]
    rfl
  · simp only [if_neg hsb]
    rfl

/-- The last commit of `retry_store_failed` restores the strengthened
invariant. -/
theorem retry_store_final_strongInv (cfg : CoordCfg) (db0 : CoordDb)
    (h : StrongInv db0)
    (hnd : (db0.rows.map TrackingRow.article_id).Nodup) (d : CoordDb)
    (hd : (coordCommits (retry_store_failed cfg db0)).getLast? = some d) :
    StrongInv d := by
  by_cases hrec : db0.rows.filter (fun r => r.status = .store_failed) = []
  · rw [show retry_store_failed cfg db0 = [] from by
      simp only [retry_store_failed]
      rw [if_pos hrec]] at hd
    simp [coordCommits] at hd
  · by_cases hts : cfg.timescaleConfigured = true
    · cases hsr : cfg.storeRaises with
      | none =>
        rw [retry_store_failed_final_none cfg db0 h hrec hts hsr] at hd
        rw [← Option.some_inj.mp hd]
        apply clear_after_mark_strongInv _ _ db0 h
        intro fl hfl ht
        rw [store_batch_snd] at hfl
        obtain ⟨resp, hresp, ho⟩ := List.mem_filterMap.mp hfl
        obtain ⟨hp, htj⟩ := storeOutcomeOf_transient _ _ resp fl ho ht
        exact build_map_lookup_good _ fl.article_id ⟨resp, hresp, hp, htj⟩
      | some e =>
        rw [retry_store_failed_final_raise cfg db0 h hrec hts e hsr] at hd
        rw [← Option.some_inj.mp hd]
        apply mark_after_reset_strongInv _ _ db0 h hnd
        · intro fl hfl ht
          obtain ⟨p, hp, hpe⟩ := List.mem_map.mp hfl
          have hfa : fl.article_id = p.1 := by rw [← hpe]
          rw [hfa]
          exact map_lookup_good _ p.1 ⟨p, hp, rfl⟩
        · intro x hx hxs
          obtain ⟨p, hp, hpa⟩ := records_key_mem db0 h x
            (List.mem_filter.mpr ⟨hx, by simp [hxs]⟩)
          exact ⟨⟨p.1, "TimescaleDB connection error: " ++ e, true⟩,
            List.mem_map.mpr ⟨p, hp, rfl⟩, hpa⟩
    · rw [show retry_store_failed cfg db0 = [] from by
        simp only [retry_store_failed]
        rw [if_neg hrec, if_pos hts]] at hd
      simp [coordCommits] at hd

/-- C2, amended: from a state whose rows satisfy the strengthened row
invariant (SUCCESS and PENDING rows carry no `result_json`, STORE_FAILED
rows carry a non-empty one — true of every row the coordinator creates),
every state committed by `analyze_articles` and by `retry_failed`
satisfies the claimed invariant, and `retry_store_failed` restores it at
its final commit provided article ids are unique per row; its
intermediate reset commit can still violate it. -/
theorem c2_invariant_amended (cfg : CoordCfg) (db0 : CoordDb)
    (hInv : StrongInv db0)
    (hnd : (db0.rows.map TrackingRow.article_id).Nodup) :
    (∀ submitId pollOutcome articles db',
      db' ∈ coordCommits
        (analyze_articles cfg submitId pollOutcome articles db0) →
      ClaimInv db') ∧
    (∀ submitId pollOutcome db',
      db' ∈ coordCommits (retry_failed cfg submitId pollOutcome db0) →
      ClaimInv db') ∧
    (∀ db',
      (coordCommits (retry_store_failed cfg db0)).getLast? = some db' →
      ClaimInv db') := by
  refine ⟨?_, ?_, ?_⟩
  · intro s po arts db' hd
    exact (analyze_commits_strongInv cfg s po arts db0 hInv db' hd).claimInv
  · intro s po db' hd
    exact (retry_failed_commits_strongInv cfg s po db0 hInv db' hd).claimInv
  · intro db' hd
    exact (retry_store_final_strongInv cfg db0 hInv hnd db' hd).claimInv

/-- Concrete run of `c2_invariant_amended`: from the
invariant-satisfying single-STORE_FAILED-row state of the counterexample,
every final commit of `retry_store_failed` satisfies the claimed
invariant again. -/
theorem c2_invariant_amended_witness :
    StrongInv ⟨[⟨1, "b", .store_failed, some "x", none⟩], none⟩ ∧
    ((⟨[⟨1, "b", .store_failed, some "x", none⟩], none⟩ :
      CoordDb).rows.map TrackingRow.article_id).Nodup ∧
    ∀ db',
      (coordCommits (retry_store_failed
        ⟨true, none, fun _ => .ok, fun _ => true, [1]⟩
        ⟨[⟨1, "b", .store_failed, some "x", none⟩], none⟩)).getLast? =
          some db' →
      ClaimInv db' :=
  ⟨by decide, by decide,
    (c2_invariant_amended ⟨true, none, fun _ => .ok, fun _ => true, [1]⟩
      ⟨[⟨1, "b", .store_failed, some "x", none⟩], none⟩
      (by decide) (by decide)).2.2⟩

end TwNews
